import Mathlib

/-!
# Verification of the elliptic-curve calculator (`main.py`)

A shallow embedding of the core of the repository: the two finite-field
implementations (`PrimeField` over GF(p) and `BinaryField` over GF(2^m)),
the two curve group laws (`PrimeCurve`, `BinaryCurve`), and the text
pipeline (`parse_int`, `normalize_curve_type`, `extract_points`,
`extract_scalar`, `handle_task`, the curve-type classification of
`parse_curve`), together with proofs of the specified properties.

Conventions of the embedding:
* Python's unbounded non-negative integers used as GF(2) polynomial
  bit-vectors become `ℕ`; `^^^`/`<<<`/`>>>` are Python's `^`/`<<`/`>>`,
  and `Nat.size` is Python's `int.bit_length`.
* Prime-field elements and parsed text integers become `ℤ`; Lean's `Int`
  `%` (`Int.emod`) agrees with Python's `%` for a positive modulus, which
  is the regime of every claim.
* Python `while` loops become structurally recursive functions on an
  explicit fuel argument; each such function is paired with a proof that
  the chosen fuel bound is never exhausted in the situations the claims
  speak about, so the embedding computes exactly what the loop computes
  there (and every definition stays kernel-computable).
* A Python function that can raise becomes a function into `Except Err _`
  (or `Option`); the constructors of `Err` are in bijection with the raise
  sites of `main.py`.
-/

/-- Error kinds, one per raise site of `main.py` (§7 taxonomy of the spec).
In Python, `divisionByZero` and `invalidOperands` are both raised as
`ZeroDivisionError` (with distinct messages) and all others as `ValueError`
(with distinct messages); `unpack` is the `ValueError` that tuple unpacking
`x_raw, y_raw = raw_point.split(",")` raises when the list does not have
exactly two elements.  `divergence` is not a Python error: it models
non-termination of a `while` loop (fuel exhaustion in this embedding). -/
inductive Err where
  | formatError
  | unknownCurveType
  | missingCoefficients
  | emptyExponents
  | invalidExponent
  | divisionByZero
  | invalidOperands
  | wrongArity
  | missingScalar
  | unknownTask
  | invalidScalar
  | unpack
  | divergence
  deriving DecidableEq, Repr

/-- Python's `int.bit_length` on a non-negative integer, as a
kernel-computable function (fuel-based; `Nat.size` itself is defined by
binary recursion and does not reduce in the kernel). -/
def bitLenAux : ℕ → ℕ → ℕ
  | 0, _ => 0
  | fuel + 1, n => if n = 0 then 0 else bitLenAux fuel (n / 2) + 1

/-- Python's `int.bit_length` on a non-negative integer. -/
def bitLen (n : ℕ) : ℕ := bitLenAux n n

theorem size_eq_size_div_two_add_one {n : ℕ} (hn : n ≠ 0) :
    Nat.size n = Nat.size (n / 2) + 1 := by
  refine le_antisymm ?_ ?_
  · rw [Nat.size_le]
    have h1 : n / 2 < 2 ^ Nat.size (n / 2) := Nat.lt_size_self _
    have h2 : n ≤ 2 * (n / 2) + 1 := by omega
    calc n ≤ 2 * (n / 2) + 1 := h2
    _ < 2 * 2 ^ Nat.size (n / 2) := by omega
    _ = 2 ^ (Nat.size (n / 2) + 1) := by ring
  · have : Nat.size (n / 2) < Nat.size n := by
      rw [Nat.lt_size]
      rcases Nat.eq_zero_or_pos (n / 2) with h | h
      · simpa [h] using Nat.one_le_iff_ne_zero.mpr hn
      · have hs : 0 < Nat.size (n / 2) := Nat.size_pos.mpr h
        have h2 : 2 ^ (Nat.size (n / 2) - 1) ≤ n / 2 :=
          Nat.lt_size.mp (by omega)
        have : 2 ^ Nat.size (n / 2) ≤ 2 * (n / 2) := by
          calc 2 ^ Nat.size (n / 2) = 2 * 2 ^ (Nat.size (n / 2) - 1) := by
                rw [← pow_succ']
                congr 1
                omega
          _ ≤ 2 * (n / 2) := by omega
        omega
    omega

theorem bitLenAux_eq_size {fuel n : ℕ} (h : n ≤ fuel) : bitLenAux fuel n = Nat.size n := by
  induction fuel generalizing n with
  | zero =>
    have : n = 0 := by omega
    simp [bitLenAux, this, Nat.size_zero]
  | succ fuel ih =>
    by_cases hn : n = 0
    · simp [bitLenAux, hn, Nat.size_zero]
    · rw [bitLenAux, if_neg hn, ih (by omega), size_eq_size_div_two_add_one hn]

/-- `bitLen` is `Nat.size`, the bit length of a natural number. -/
theorem bitLen_eq_size (n : ℕ) : bitLen n = Nat.size n := bitLenAux_eq_size le_rfl

namespace BinaryField

/-- `main.py` line 94-96: `degree = modulus.bit_length() - 1` (ℕ-truncated;
the code only uses it for a nonzero modulus). -/
def degree (M : ℕ) : ℕ := bitLen M - 1

/-- One pass of the `while` loop of `BinaryField.reduce` (`main.py` 98-103),
with fuel.  The Python loop condition `value.bit_length() - 1 >= mod_deg`
(evaluated in ℤ) is equivalent to `M.size ≤ v.size` in every case,
including `v = 0` and `M = 0`.  For `M = 0` the Python loop diverges;
the fuel `bitLen v` is proved sufficient for every `M ≠ 0`. -/
def reduceAux (M : ℕ) : ℕ → ℕ → ℕ
  | 0, v => v
  | fuel + 1, v =>
    if bitLen M ≤ bitLen v then reduceAux M fuel (v ^^^ (M <<< (bitLen v - bitLen M))) else v

/-- `BinaryField.reduce` (`main.py` 98-103). -/
def reduce (M v : ℕ) : ℕ := reduceAux M (bitLen v) v

/-- `BinaryField.add` (`main.py` 105-106): `a ^ b`. -/
def add (a b : ℕ) : ℕ := a ^^^ b

/-- `BinaryField.sub` (`main.py` 108-109): `self.add(a, b)`. -/
def sub (a b : ℕ) : ℕ := add a b

/-- The `while bb:` loop of `BinaryField.mul` (`main.py` 111-121), with
fuel.  `deg` is `self.degree`; the Python truthiness test `if aa >> self.degree:`
is `aa >>> deg ≠ 0`.  The fuel `bitLen b` is proved sufficient. -/
def mulAux (M deg : ℕ) : ℕ → ℕ → ℕ → ℕ → ℕ
  | 0, result, _, _ => result
  | fuel + 1, result, aa, bb =>
    if bb = 0 then result
    else
      let result' := if bb &&& 1 = 1 then result ^^^ aa else result
      let aa' := aa <<< 1
      let aa'' := if aa' >>> deg ≠ 0 then aa' ^^^ M else aa'
      mulAux M deg fuel result' aa'' (bb >>> 1)

/-- `BinaryField.mul` (`main.py` 111-121). -/
def mul (M a b : ℕ) : ℕ := reduce M (mulAux M (degree M) (bitLen b) 0 a b)

/-- `BinaryField.square` (`main.py` 123-124): `self.mul(a, a)`. -/
def square (M a : ℕ) : ℕ := mul M a a

/-- `BinaryField.neg` (`main.py` 145-146): `a`. -/
def neg (a : ℕ) : ℕ := a

/-- The `while u != 1:` loop of `BinaryField.inv` (`main.py` 126-140), with
fuel.  The Python signed quantity `j = u.bit_length() - v.bit_length()`
together with the `if j < 0: swap; j = -j` step is modelled by swapping
first when `u.size < v.size` and then taking the ℕ-subtraction.
`none` models non-termination (the Python loop diverges when
`gcd(a, modulus) ≠ 1`); the fuel `bitLen a + bitLen M + 1` is proved
sufficient whenever the GF(2) polynomials of `a` and `M` are coprime. -/
def invLoop (M : ℕ) : ℕ → ℕ → ℕ → ℕ → ℕ → Option ℕ
  | 0, _, _, _, _ => none
  | fuel + 1, u, v, g1, g2 =>
    if u = 1 then some g1
    else
      let s := if bitLen u < bitLen v then (v, u, g2, g1) else (u, v, g1, g2)
      let j := bitLen s.1 - bitLen s.2.1
      invLoop M fuel (s.1 ^^^ (s.2.1 <<< j)) s.2.1 (s.2.2.1 ^^^ (s.2.2.2 <<< j)) s.2.2.2

/-- `BinaryField.inv` (`main.py` 126-140). -/
def inv (M a : ℕ) : Except Err ℕ :=
  if a = 0 then .error .divisionByZero
  else
    match invLoop M (bitLen a + bitLen M + 1) a M 1 0 with
    | some g1 => .ok (reduce M g1)
    | none => .error .divergence

/-- `BinaryField.div` (`main.py` 142-143): `self.mul(a, self.inv(b))`. -/
def div (M a b : ℕ) : Except Err ℕ := do
  let i ← inv M b
  return mul M a i

/-- Schoolbook carryless (GF(2)) polynomial multiplication, with fuel;
this is the reference function of claim C1 ("schoolbook polynomial
multiplication", spec §9), not code of `main.py`: iterate over the bits
of `b`, XOR-ing the shifted multiplicand into the accumulator, with no
mid-loop reduction. -/
def clmulAux : ℕ → ℕ → ℕ → ℕ
  | 0, _, _ => 0
  | fuel + 1, a, b =>
    if b = 0 then 0
    else (if b &&& 1 = 1 then a else 0) ^^^ clmulAux fuel (2 * a) (b / 2)

/-- Schoolbook carryless polynomial multiplication (reference for C1). -/
def clmul (a b : ℕ) : ℕ := clmulAux (bitLen b) a b

end BinaryField

/-!
## GF(2)[X] semantics of the bit-vector encoding

`toPoly n` is the polynomial over GF(2) whose coefficient of `X^i` is bit
`i` of `n` — the interpretation under which the XOR/shift arithmetic of
`BinaryField` is polynomial arithmetic.
-/

open Polynomial in
/-- The GF(2) polynomial encoded by the bits of a natural number. -/
noncomputable def toPoly (n : ℕ) : Polynomial (ZMod 2) :=
  ∑ i ∈ Finset.range n, if n.testBit i then Polynomial.X ^ i else 0

open Polynomial

theorem toPoly_coeff (n j : ℕ) :
    (toPoly n).coeff j = if n.testBit j then 1 else 0 := by
  rw [toPoly, finset_sum_coeff]
  rcases lt_or_le j n with hj | hj
  · rw [Finset.sum_eq_single j]
    · by_cases h : n.testBit j <;> simp [h, coeff_X_pow]
    · intro i _ hij
      by_cases h : n.testBit i <;> simp [h, coeff_X_pow, Ne.symm hij]
    · intro h
      exact absurd (Finset.mem_range.mpr hj) h
  · have hbit : n.testBit j = false :=
      Nat.testBit_lt_two_pow (lt_of_lt_of_le (Nat.lt_two_pow n) (Nat.pow_le_pow_right (by omega) hj))
    rw [hbit, if_neg Bool.false_ne_true]
    refine Finset.sum_eq_zero fun i hi => ?_
    have hij : j ≠ i := by
      have := Finset.mem_range.mp hi
      omega
    by_cases h : n.testBit i <;> simp [h, coeff_X_pow, hij]

theorem toPoly_inj {m n : ℕ} (h : toPoly m = toPoly n) : m = n := by
  refine Nat.eq_of_testBit_eq fun i => ?_
  have h2 := congrArg (fun p => Polynomial.coeff p i) h
  simp only [toPoly_coeff] at h2
  by_cases hm : m.testBit i = true <;> by_cases hn : n.testBit i = true
  · rw [hm, hn]
  · rw [if_pos hm, if_neg hn] at h2
    exact absurd h2 one_ne_zero
  · rw [if_neg hm, if_pos hn] at h2
    exact absurd h2.symm one_ne_zero
  · rw [Bool.not_eq_true] at hm hn
    rw [hm, hn]

@[simp] theorem toPoly_zero : toPoly 0 = 0 := by
  simp [toPoly]

@[simp] theorem toPoly_one : toPoly 1 = 1 := by
  ext j
  rw [toPoly_coeff]
  cases j with
  | zero => simp
  | succ j =>
    rw [Nat.testBit_succ]
    simp [coeff_one]

theorem toPoly_eq_zero_iff {n : ℕ} : toPoly n = 0 ↔ n = 0 := by
  constructor
  · intro h
    exact toPoly_inj (by simp [h])
  · rintro rfl
    exact toPoly_zero

theorem toPoly_xor (a b : ℕ) : toPoly (a ^^^ b) = toPoly a + toPoly b := by
  ext j
  rw [coeff_add, toPoly_coeff, toPoly_coeff, toPoly_coeff, Nat.testBit_xor]
  by_cases ha : a.testBit j <;> by_cases hb : b.testBit j <;> simp [ha, hb] <;> decide

theorem toPoly_two_mul (n : ℕ) : toPoly (2 * n) = toPoly n * X := by
  ext j
  cases j with
  | zero =>
    rw [toPoly_coeff]
    have : (2 * n).testBit 0 = false := by
      rw [Nat.testBit_to_div_mod]
      simp [Nat.mul_mod_right]
    simp [this, coeff_mul_X_zero]
  | succ j =>
    rw [coeff_mul_X, toPoly_coeff, toPoly_coeff, Nat.testBit_succ,
      Nat.mul_div_cancel_left n (by norm_num : 0 < 2)]

theorem toPoly_shiftLeft (a k : ℕ) : toPoly (a <<< k) = toPoly a * X ^ k := by
  induction k with
  | zero => simp
  | succ k ih =>
    rw [Nat.shiftLeft_succ, toPoly_two_mul, ih]
    ring

theorem toPoly_bit_decomp (n : ℕ) :
    toPoly n = (if n.testBit 0 then 1 else 0) + toPoly (n / 2) * X := by
  ext j
  cases j with
  | zero =>
    rw [coeff_add, toPoly_coeff, coeff_mul_X_zero]
    by_cases h : n.testBit 0 <;> simp [h]
  | succ j =>
    rw [coeff_add, coeff_mul_X, toPoly_coeff, toPoly_coeff, Nat.testBit_succ]
    by_cases h : n.testBit 0 <;> simp [h, coeff_one]

theorem testBit_size_sub_one {n : ℕ} (hn : n ≠ 0) :
    n.testBit (Nat.size n - 1) = true := by
  have hpos : 0 < Nat.size n := Nat.size_pos.mpr (Nat.pos_of_ne_zero hn)
  have hlow : 2 ^ (Nat.size n - 1) ≤ n := Nat.lt_size.mp (by omega)
  have hhigh : n < 2 ^ Nat.size n := Nat.lt_size_self n
  rw [Nat.testBit_to_div_mod]
  have h1 : n / 2 ^ (Nat.size n - 1) = 1 := by
    have h2 : 2 ^ Nat.size n = 2 * 2 ^ (Nat.size n - 1) := by
      rw [← pow_succ']
      congr 1
      omega
    have := Nat.div_lt_of_lt_mul (by omega : n < 2 ^ (Nat.size n - 1) * 2)
    have := (Nat.le_div_iff_mul_le (Nat.pos_pow_of_pos _ (by norm_num))).mpr
      (by omega : 1 * 2 ^ (Nat.size n - 1) ≤ n)
    omega
  simp [h1]

theorem toPoly_testBit_ge_size {n m : ℕ} (hm : Nat.size n ≤ m) : n.testBit m = false :=
  Nat.testBit_lt_two_pow
    (lt_of_lt_of_le (Nat.lt_size_self n) (Nat.pow_le_pow_right (by norm_num) hm))

theorem toPoly_degree_eq {n : ℕ} (hn : n ≠ 0) :
    (toPoly n).degree = ((Nat.size n - 1 : ℕ) : WithBot ℕ) := by
  have hsz : 0 < Nat.size n := Nat.size_pos.mpr (Nat.pos_of_ne_zero hn)
  refine le_antisymm ?_ ?_
  · rw [degree_le_iff_coeff_zero]
    intro m hm
    have hlt : Nat.size n - 1 < m := by exact_mod_cast hm
    rw [toPoly_coeff, toPoly_testBit_ge_size (by omega)]
    simp
  · refine le_degree_of_ne_zero ?_
    rw [toPoly_coeff, testBit_size_sub_one hn]
    simp

theorem toPoly_degree_lt (n : ℕ) : (toPoly n).degree < ((Nat.size n : ℕ) : WithBot ℕ) := by
  rcases eq_or_ne n 0 with rfl | hn
  · rw [toPoly_zero, degree_zero]
    exact WithBot.bot_lt_coe _
  · rw [toPoly_degree_eq hn]
    have hsz : 0 < Nat.size n := Nat.size_pos.mpr (Nat.pos_of_ne_zero hn)
    exact_mod_cast Nat.sub_lt hsz one_pos

theorem toPoly_natDegree {n : ℕ} (hn : n ≠ 0) :
    (toPoly n).natDegree = Nat.size n - 1 :=
  natDegree_eq_of_degree_eq_some (toPoly_degree_eq hn)

theorem toPoly_monic {n : ℕ} (hn : n ≠ 0) : (toPoly n).Monic := by
  rw [Monic, leadingCoeff, toPoly_natDegree hn, toPoly_coeff, testBit_size_sub_one hn]
  simp

/-!
## Bit-level facts: XOR of two numbers with the same top bit
-/

theorem lt_two_pow_of_high_bits_false {n k : ℕ}
    (h : ∀ i, k ≤ i → n.testBit i = false) : n < 2 ^ k := by
  by_contra hn
  push_neg at hn
  have hnz : n ≠ 0 := by
    have : 0 < 2 ^ k := Nat.pos_pow_of_pos _ (by norm_num)
    omega
  have hk : k ≤ Nat.size n - 1 := by
    have : k < Nat.size n := Nat.lt_size.mpr hn
    omega
  have h2 := h _ hk
  rw [testBit_size_sub_one hnz] at h2
  simp at h2

theorem testBit_eq_true_of_mem_Ico {k x : ℕ} (h1 : 2 ^ k ≤ x) (h2 : x < 2 ^ (k + 1)) :
    x.testBit k = true := by
  rw [Nat.testBit_to_div_mod]
  have hlt : x / 2 ^ k < 2 := Nat.div_lt_of_lt_mul (by rw [pow_succ] at h2; omega)
  have hge : 1 ≤ x / 2 ^ k :=
    (Nat.le_div_iff_mul_le (Nat.pos_pow_of_pos _ (by norm_num))).mpr (by omega)
  have : x / 2 ^ k = 1 := by omega
  simp [this]

/-- XOR-ing two numbers that share the same top-bit position cancels that
top bit: the result drops below `2 ^ k`. -/
theorem xor_top_cancel {k a b : ℕ} (ha1 : 2 ^ k ≤ a) (ha2 : a < 2 ^ (k + 1))
    (hb1 : 2 ^ k ≤ b) (hb2 : b < 2 ^ (k + 1)) : a ^^^ b < 2 ^ k := by
  apply lt_two_pow_of_high_bits_false
  intro i hi
  rw [Nat.testBit_xor]
  rcases eq_or_lt_of_le hi with rfl | hlt
  · rw [testBit_eq_true_of_mem_Ico ha1 ha2, testBit_eq_true_of_mem_Ico hb1 hb2]
    rfl
  · have hpow : (2 : ℕ) ^ (i - 1 + 1) ≤ 2 ^ i := Nat.pow_le_pow_right (by norm_num) (by omega)
    have h2 : (2 : ℕ) ^ (k + 1) ≤ 2 ^ i := Nat.pow_le_pow_right (by norm_num) (by omega)
    rw [Nat.testBit_lt_two_pow (by omega), Nat.testBit_lt_two_pow (by omega)]
    rfl

namespace BinaryField

/-!
## Characterization of `reduce`: it computes the `modByMonic` remainder
-/

theorem size_lt_of_lt_two_pow_sub_one {M v : ℕ} (hv : v < 2 ^ (Nat.size M - 1))
    (hM : M ≠ 0) : Nat.size v < Nat.size M := by
  have h1 : Nat.size v ≤ Nat.size M - 1 := Nat.size_le.mpr hv
  have h2 : 0 < Nat.size M := Nat.size_pos.mpr (Nat.pos_of_ne_zero hM)
  omega

theorem modByMonic_eq_self_of_canonical {M v : ℕ} (hM : M ≠ 0)
    (hv : v < 2 ^ (Nat.size M - 1)) : toPoly v %ₘ toPoly M = toPoly v := by
  rw [modByMonic_eq_self_iff (toPoly_monic hM)]
  calc (toPoly v).degree < ((Nat.size v : ℕ) : WithBot ℕ) := toPoly_degree_lt v
  _ ≤ ((Nat.size M - 1 : ℕ) : WithBot ℕ) := by
      exact_mod_cast Nat.size_le.mpr hv
  _ = (toPoly M).degree := (toPoly_degree_eq hM).symm

theorem reduceAux_spec {M : ℕ} (hM : M ≠ 0) :
    ∀ fuel v, Nat.size v ≤ fuel →
      toPoly (reduceAux M fuel v) = toPoly v %ₘ toPoly M ∧
        reduceAux M fuel v < 2 ^ (Nat.size M - 1) := by
  intro fuel
  induction fuel with
  | zero =>
    intro v hv
    have hv0 : v = 0 := Nat.size_eq_zero.mp (by omega)
    subst hv0
    refine ⟨by simp [reduceAux, zero_modByMonic], ?_⟩
    simp [reduceAux]
  | succ fuel ih =>
    intro v hv
    rw [reduceAux]
    simp only [bitLen_eq_size]
    by_cases hcond : Nat.size M ≤ Nat.size v
    · rw [if_pos hcond]
      have hMsz : 0 < Nat.size M := Nat.size_pos.mpr (Nat.pos_of_ne_zero hM)
      have hvsz : 0 < Nat.size v := by omega
      have hvnz : v ≠ 0 := by
        intro h
        rw [h, Nat.size_zero] at hvsz
        omega
      -- the XOR-ed value loses the top bit of `v`
      set s := Nat.size v - Nat.size M with hs
      have hvlow : 2 ^ (Nat.size v - 1) ≤ v := Nat.lt_size.mp (by omega)
      have hvhigh : v < 2 ^ (Nat.size v - 1 + 1) := by
        have := Nat.lt_size_self v
        have h2 : Nat.size v - 1 + 1 = Nat.size v := by omega
        rw [h2]
        exact this
      have hMlow : 2 ^ (Nat.size M - 1) ≤ M := Nat.lt_size.mp (by omega)
      have hMhigh : M < 2 ^ Nat.size M := Nat.lt_size_self M
      have hshift_low : 2 ^ (Nat.size v - 1) ≤ M <<< s := by
        rw [Nat.shiftLeft_eq]
        calc 2 ^ (Nat.size v - 1) = 2 ^ (Nat.size M - 1) * 2 ^ s := by
              rw [← pow_add]
              congr 1
              omega
        _ ≤ M * 2 ^ s := by
              exact Nat.mul_le_mul_right _ hMlow
      have hshift_high : M <<< s < 2 ^ (Nat.size v - 1 + 1) := by
        rw [Nat.shiftLeft_eq]
        calc M * 2 ^ s < 2 ^ Nat.size M * 2 ^ s := by
              have : 0 < 2 ^ s := Nat.pos_pow_of_pos _ (by norm_num)
              exact Nat.mul_lt_mul_of_lt_of_le hMhigh le_rfl this
        _ = 2 ^ (Nat.size v - 1 + 1) := by
              rw [← pow_add]
              congr 1
              omega
      have hdrop : v ^^^ (M <<< s) < 2 ^ (Nat.size v - 1) :=
        xor_top_cancel hvlow hvhigh hshift_low hshift_high
      have hszdrop : Nat.size (v ^^^ (M <<< s)) ≤ fuel := by
        have := Nat.size_le.mpr hdrop
        omega
      obtain ⟨h1, h2⟩ := ih _ hszdrop
      refine ⟨?_, h2⟩
      rw [h1, toPoly_xor, toPoly_shiftLeft, add_modByMonic,
        self_mul_modByMonic (toPoly_monic hM), add_zero]
    · rw [if_neg hcond]
      push_neg at hcond
      have hv2 : v < 2 ^ (Nat.size M - 1) := by
        have h1 : v < 2 ^ Nat.size v := Nat.lt_size_self v
        have h2 : Nat.size v ≤ Nat.size M - 1 := by omega
        exact lt_of_lt_of_le h1 (Nat.pow_le_pow_right (by norm_num) h2)
      exact ⟨(modByMonic_eq_self_of_canonical hM hv2).symm, hv2⟩

theorem reduce_toPoly {M : ℕ} (hM : M ≠ 0) (v : ℕ) :
    toPoly (reduce M v) = toPoly v %ₘ toPoly M := by
  rw [reduce, bitLen_eq_size]
  exact (reduceAux_spec hM _ v le_rfl).1

theorem reduce_lt {M : ℕ} (hM : M ≠ 0) (v : ℕ) :
    reduce M v < 2 ^ (Nat.size M - 1) := by
  rw [reduce, bitLen_eq_size]
  exact (reduceAux_spec hM _ v le_rfl).2

theorem reduce_eq_self {M v : ℕ} (hM : M ≠ 0) (hv : v < 2 ^ (Nat.size M - 1)) :
    reduce M v = v := by
  rw [reduce]
  cases h : bitLen v with
  | zero => rfl
  | succ n =>
    rw [reduceAux]
    simp only [bitLen_eq_size]
    rw [if_neg (by have := size_lt_of_lt_two_pow_sub_one hv hM; omega)]

/-!
## Characterization of `mul`: the loop computes the product modulo `M`
-/

theorem mulAux_spec {M : ℕ} (hM : M ≠ 0) :
    ∀ fuel result aa bb, Nat.size bb ≤ fuel →
      ∃ q, toPoly (mulAux M (degree M) fuel result aa bb) =
        toPoly result + toPoly aa * toPoly bb + toPoly M * q := by
  intro fuel
  induction fuel with
  | zero =>
    intro result aa bb hbb
    have hbb0 : bb = 0 := Nat.size_eq_zero.mp (by omega)
    subst hbb0
    exact ⟨0, by simp [mulAux]⟩
  | succ fuel ih =>
    intro result aa bb hbb
    rw [mulAux]
    by_cases hbb0 : bb = 0
    · rw [if_pos hbb0, hbb0]
      exact ⟨0, by simp⟩
    · rw [if_neg hbb0]
      simp only []
      have hbbsz : Nat.size (bb >>> 1) ≤ fuel := by
        rw [Nat.shiftRight_one]
        have := size_eq_size_div_two_add_one hbb0
        omega
      set aa2 := if aa <<< 1 >>> degree M ≠ 0 then aa <<< 1 ^^^ M else aa <<< 1 with haa2
      obtain ⟨q, hq⟩ := ih (if bb &&& 1 = 1 then result ^^^ aa else result) aa2 (bb >>> 1)
        hbbsz
      -- decompose bb into its low bit and its shift
      have hsplit : toPoly bb = (if bb.testBit 0 then 1 else 0) + toPoly (bb / 2) * X :=
        toPoly_bit_decomp bb
      have hbit : (bb &&& 1 = 1) ↔ bb.testBit 0 = true := by
        rw [Nat.and_one_is_mod, Nat.testBit_zero]
        simp
      have haa2_poly : toPoly aa2 = toPoly aa * X ∨ toPoly aa2 = toPoly aa * X + toPoly M := by
        rw [haa2]
        by_cases hc : aa <<< 1 >>> degree M ≠ 0
        · right
          rw [if_pos hc, toPoly_xor, toPoly_shiftLeft, pow_one]
        · left
          rw [if_neg hc, toPoly_shiftLeft, pow_one]
      rw [hq, Nat.shiftRight_one, hsplit]
      by_cases hb1 : bb &&& 1 = 1
      · have hbt : bb.testBit 0 = true := hbit.mp hb1
        rw [if_pos hb1, if_pos hbt, toPoly_xor]
        rcases haa2_poly with h | h
        · exact ⟨q, by rw [h]; ring⟩
        · exact ⟨q + toPoly (bb / 2), by rw [h]; ring⟩
      · have hbt : ¬bb.testBit 0 = true := fun h => hb1 (hbit.mpr h)
        rw [if_neg hb1, if_neg hbt]
        rcases haa2_poly with h | h
        · exact ⟨q, by rw [h]; ring⟩
        · exact ⟨q + toPoly (bb / 2), by rw [h]; ring⟩

theorem mul_toPoly {M : ℕ} (hM : M ≠ 0) (a b : ℕ) :
    toPoly (mul M a b) = toPoly a * toPoly b %ₘ toPoly M := by
  rw [mul, reduce_toPoly hM, bitLen_eq_size]
  obtain ⟨q, hq⟩ := mulAux_spec hM (Nat.size b) 0 a b le_rfl
  rw [hq, toPoly_zero, zero_add, add_modByMonic,
    self_mul_modByMonic (toPoly_monic hM), add_zero]

theorem clmulAux_toPoly :
    ∀ fuel a b, Nat.size b ≤ fuel → toPoly (clmulAux fuel a b) = toPoly a * toPoly b := by
  intro fuel
  induction fuel with
  | zero =>
    intro a b hb
    have hb0 : b = 0 := Nat.size_eq_zero.mp (by omega)
    subst hb0
    simp [clmulAux]
  | succ fuel ih =>
    intro a b hb
    rw [clmulAux]
    by_cases hb0 : b = 0
    · rw [if_pos hb0, hb0]
      simp
    · rw [if_neg hb0]
      have hbsz : Nat.size (b / 2) ≤ fuel := by
        have := size_eq_size_div_two_add_one hb0
        omega
      rw [toPoly_xor, ih (2 * a) (b / 2) hbsz, toPoly_two_mul,
        toPoly_bit_decomp b]
      have hbit : (b &&& 1 = 1) ↔ b.testBit 0 = true := by
        rw [Nat.and_one_is_mod, Nat.testBit_zero]
        simp
      by_cases hb1 : b &&& 1 = 1
      · rw [if_pos hb1, if_pos (hbit.mp hb1)]
        ring
      · rw [if_neg hb1, if_neg (fun h => hb1 (hbit.mpr h))]
        simp
        ring

theorem clmul_toPoly (a b : ℕ) : toPoly (clmul a b) = toPoly a * toPoly b := by
  rw [clmul, bitLen_eq_size]
  exact clmulAux_toPoly _ a b le_rfl

end BinaryField

/-- **C1.** For binary-field elements `a`, `b` of degree `< m` (the degree of
the field modulus `M`), `BinaryField.mul M a b` equals the canonical
remainder obtained by schoolbook carryless polynomial multiplication
(`clmul`) followed by one full polynomial division by the modulus
(`BinaryField.reduce`); in particular the mid-loop folding of the modulus
into the shifting multiplicand never changes the result. -/
theorem binaryField_mul_eq_schoolbook_reduce (M a b : ℕ) (hM : M ≠ 0)
    (ha : a < 2 ^ BinaryField.degree M) (hb : b < 2 ^ BinaryField.degree M) :
    BinaryField.mul M a b = BinaryField.reduce M (BinaryField.clmul a b) := by
  have hdeg : BinaryField.degree M = Nat.size M - 1 := by
    rw [BinaryField.degree, bitLen_eq_size]
  rw [hdeg] at ha hb
  apply toPoly_inj
  rw [BinaryField.mul_toPoly hM, BinaryField.reduce_toPoly hM,
    BinaryField.clmul_toPoly]

/-- Witness for C1 at `M = 11` (`x³+x+1`), `a = 5`, `b = 7`. -/
theorem binaryField_mul_eq_schoolbook_reduce_witness :
    (11 : ℕ) ≠ 0 ∧ 5 < 2 ^ BinaryField.degree 11 ∧ 7 < 2 ^ BinaryField.degree 11 ∧
      BinaryField.mul 11 5 7 = BinaryField.reduce 11 (BinaryField.clmul 5 7) :=
  ⟨by decide, by decide, by decide,
    binaryField_mul_eq_schoolbook_reduce 11 5 7 (by decide) (by decide) (by decide)⟩

/-!
## The prime field (`PrimeField`, `main.py` 63-88)

Elements are Python integers (`ℤ`); every operation reduces by `% p`
(`Int.emod`, which agrees with Python's `%` for `p > 0`).
-/

namespace PrimeField

/-- `PrimeField.add` (`main.py` 67-68). -/
def add (p a b : ℤ) : ℤ := (a + b) % p

/-- `PrimeField.sub` (`main.py` 70-71). -/
def sub (p a b : ℤ) : ℤ := (a - b) % p

/-- `PrimeField.mul` (`main.py` 73-74). -/
def mul (p a b : ℤ) : ℤ := (a * b) % p

/-- `PrimeField.inv` (`main.py` 76-79); `pow(a, p - 2, p)` is `a ^ (p-2) % p`
(the code only calls it with a prime `p`, hence `p - 2 ≥ 0`). -/
def inv (p a : ℤ) : Except Err ℤ :=
  if a % p = 0 then .error .divisionByZero else .ok (a ^ (p - 2).toNat % p)

/-- `PrimeField.div` (`main.py` 81-82). -/
def div (p a b : ℤ) : Except Err ℤ := do
  let i ← inv p b
  return mul p a i

/-- `PrimeField.neg` (`main.py` 84-85). -/
def neg (p a : ℤ) : ℤ := (-a) % p

/-- `PrimeField.square` (`main.py` 87-88). -/
def square (p a : ℤ) : ℤ := mul p a a

/-- Fermat-little-theorem correctness of `PrimeField.inv` on canonical
nonzero elements. -/
theorem mul_inv_eq_one_p {p : ℕ} (hp : p.Prime) {a : ℤ} (h1 : 1 ≤ a) (h2 : a < (p : ℤ)) :
    ∃ r, inv (p : ℤ) a = .ok r ∧ mul (p : ℤ) a r = 1 := by
  haveI : Fact p.Prime := ⟨hp⟩
  have hp2 : 2 ≤ p := hp.two_le
  have hmodself : a % (p : ℤ) = a := Int.emod_eq_of_lt (by omega) h2
  have hmod : ¬a % (p : ℤ) = 0 := by omega
  refine ⟨a ^ ((p : ℤ) - 2).toNat % p, by rw [inv, if_neg hmod], ?_⟩
  have hcast : (a : ZMod p) ≠ 0 := by
    intro h
    rw [ZMod.intCast_zmod_eq_zero_iff_dvd] at h
    exact hmod (Int.emod_eq_zero_of_dvd h)
  have hexp : ((p : ℤ) - 2).toNat = p - 2 := by omega
  have hfermat : (a : ZMod p) ^ (p - 1) = 1 := ZMod.pow_card_sub_one_eq_one hcast
  have hzmod : ((mul (p : ℤ) a (a ^ ((p : ℤ) - 2).toNat % p) : ℤ) : ZMod p) =
      ((1 : ℤ) : ZMod p) := by
    rw [mul, hexp]
    push_cast
    rw [← pow_succ']
    have h3 : p - 2 + 1 = p - 1 := by omega
    rw [h3, hfermat]
  rw [ZMod.intCast_eq_intCast_iff'] at hzmod
  have h1p : (1 : ℤ) % (p : ℤ) = 1 :=
    Int.emod_eq_of_lt (by norm_num) (by exact_mod_cast hp.one_lt)
  rw [h1p, mul, Int.emod_emod_of_dvd _ (dvd_refl _)] at hzmod
  rw [mul]
  exact hzmod

end PrimeField

/-!
## Correctness of `BinaryField.inv` (binary extended Euclid, `main.py` 126-140)

The loop maintains a Bézout relation (`IsComb`) and coprimality of the pair
`(u, v)`; coprimality guarantees termination within the chosen fuel.
-/

namespace BinaryField

/-- `x` is the GF(2)-polynomial combination `g·a₀ + s·M` (the Bézout
invariant of the `inv` loop, stated for the coefficient `g` that the code
tracks and an existentially quantified cofactor `s`). -/
def IsComb (a₀ M x g : ℕ) : Prop :=
  ∃ s : Polynomial (ZMod 2), toPoly x = toPoly g * toPoly a₀ + s * toPoly M

theorem IsComb.xor_shift {a₀ M x g y h : ℕ} (hx : IsComb a₀ M x g)
    (hy : IsComb a₀ M y h) (j : ℕ) :
    IsComb a₀ M (x ^^^ (y <<< j)) (g ^^^ (h <<< j)) := by
  obtain ⟨s, hs⟩ := hx
  obtain ⟨t, ht⟩ := hy
  refine ⟨s + t * X ^ j, ?_⟩
  rw [toPoly_xor, toPoly_shiftLeft, toPoly_xor, toPoly_shiftLeft, hs, ht]
  ring

theorem toPoly_isUnit_eq_one {v : ℕ} (h : IsUnit (toPoly v)) : v = 1 := by
  obtain ⟨r, hr, hCr⟩ := Polynomial.isUnit_iff.mp h
  have hr1 : r = 1 := by
    fin_cases r
    · exact absurd hr (by simp)
    · rfl
  apply toPoly_inj
  rw [toPoly_one, ← hCr, hr1, Polynomial.C_1]

theorem xor_shift_size_lt {U V : ℕ} (hU : U ≠ 0) (hV : V ≠ 0)
    (h : Nat.size V ≤ Nat.size U) :
    U ^^^ (V <<< (Nat.size U - Nat.size V)) < 2 ^ (Nat.size U - 1) := by
  have hUsz : 0 < Nat.size U := Nat.size_pos.mpr (Nat.pos_of_ne_zero hU)
  have hVsz : 0 < Nat.size V := Nat.size_pos.mpr (Nat.pos_of_ne_zero hV)
  have hUlow : 2 ^ (Nat.size U - 1) ≤ U := Nat.lt_size.mp (by omega)
  have hUhigh : U < 2 ^ (Nat.size U - 1 + 1) := by
    have := Nat.lt_size_self U
    have h2 : Nat.size U - 1 + 1 = Nat.size U := by omega
    rw [h2]
    exact this
  have hVlow : 2 ^ (Nat.size V - 1) ≤ V := Nat.lt_size.mp (by omega)
  have hVhigh : V < 2 ^ Nat.size V := Nat.lt_size_self V
  have hsl : 2 ^ (Nat.size U - 1) ≤ V <<< (Nat.size U - Nat.size V) := by
    rw [Nat.shiftLeft_eq]
    calc 2 ^ (Nat.size U - 1) = 2 ^ (Nat.size V - 1) * 2 ^ (Nat.size U - Nat.size V) := by
          rw [← pow_add]
          congr 1
          omega
    _ ≤ V * 2 ^ (Nat.size U - Nat.size V) := Nat.mul_le_mul_right _ hVlow
  have hsh : V <<< (Nat.size U - Nat.size V) < 2 ^ (Nat.size U - 1 + 1) := by
    rw [Nat.shiftLeft_eq]
    calc V * 2 ^ (Nat.size U - Nat.size V) < 2 ^ Nat.size V * 2 ^ (Nat.size U - Nat.size V) := by
          have : 0 < 2 ^ (Nat.size U - Nat.size V) := Nat.pos_pow_of_pos _ (by norm_num)
          exact Nat.mul_lt_mul_of_lt_of_le hVhigh le_rfl this
    _ = 2 ^ (Nat.size U - 1 + 1) := by
          rw [← pow_add]
          congr 1
          omega
  exact xor_top_cancel hUlow hUhigh hsl hsh

/-- Main invariant lemma for the Euclid loop: with a coprime state and
enough fuel, the loop returns a Bézout coefficient for `1`. -/
theorem invLoop_ok (a₀ M : ℕ) :
    ∀ fuel u v g1 g2, Nat.size u + Nat.size v + 1 ≤ fuel →
      IsCoprime (toPoly u) (toPoly v) →
      IsComb a₀ M u g1 → IsComb a₀ M v g2 →
      ∃ g, invLoop M fuel u v g1 g2 = some g ∧ IsComb a₀ M 1 g := by
  intro fuel
  induction fuel with
  | zero =>
    intro u v g1 g2 hfuel
    omega
  | succ fuel ih =>
    intro u v g1 g2 hfuel hcop hu hv
    by_cases hu1 : u = 1
    · subst hu1
      exact ⟨g1, by rw [invLoop, if_pos rfl], hu⟩
    · rw [invLoop, if_neg hu1]
      by_cases hu0 : u = 0
      · -- coprimality forces v = 1; the loop then reaches u = 1 in one step
        subst hu0
        have hv1 : v = 1 := by
          apply toPoly_isUnit_eq_one
          rw [toPoly_zero] at hcop
          exact isCoprime_zero_left.mp hcop
        subst hv1
        have hfuel1 : 1 ≤ fuel := by
          have h0 : Nat.size 0 = 0 := Nat.size_zero
          have h1 : Nat.size 1 = 1 := Nat.size_one
          omega
        obtain ⟨f, rfl⟩ : ∃ f, fuel = f + 1 := ⟨fuel - 1, by omega⟩
        have hstep : IsComb a₀ M 1 (g2 ^^^ (g1 <<< 1)) := by
          have := hv.xor_shift hu 1
          simpa using this
        refine ⟨g2 ^^^ (g1 <<< 1), ?_, hstep⟩
        norm_num [bitLen, bitLenAux, invLoop]
      · -- both u and v are nonzero: one genuine Euclid step
        have hv0 : v ≠ 0 := by
          intro h
          subst h
          rw [toPoly_zero] at hcop
          exact hu1 (toPoly_isUnit_eq_one (isCoprime_zero_left.mp hcop.symm))
        -- normalize so that the first component has the larger size
        rw [bitLen_eq_size, bitLen_eq_size]
        by_cases hswap : Nat.size u < Nat.size v
        · rw [if_pos hswap]
          simp only [bitLen_eq_size]
          have hnew : v ^^^ (u <<< (Nat.size v - Nat.size u)) < 2 ^ (Nat.size v - 1) :=
            xor_shift_size_lt hv0 hu0 (by omega)
          have hszv : 0 < Nat.size v := Nat.size_pos.mpr (Nat.pos_of_ne_zero hv0)
          have hfits : Nat.size (v ^^^ (u <<< (Nat.size v - Nat.size u))) + Nat.size u + 1
              ≤ fuel := by
            have := Nat.size_le.mpr hnew
            omega
          refine ih _ _ _ _ hfits ?_ (hv.xor_shift hu _) hu
          have hcop2 : IsCoprime (toPoly v) (toPoly u) := hcop.symm
          have h3 := hcop2.add_mul_left_left (X ^ (Nat.size v - Nat.size u))
          rwa [← toPoly_shiftLeft, ← toPoly_xor] at h3
        · rw [if_neg hswap]
          simp only [bitLen_eq_size]
          push_neg at hswap
          have hnew : u ^^^ (v <<< (Nat.size u - Nat.size v)) < 2 ^ (Nat.size u - 1) :=
            xor_shift_size_lt hu0 hv0 hswap
          have hszu : 0 < Nat.size u := Nat.size_pos.mpr (Nat.pos_of_ne_zero hu0)
          have hfits : Nat.size (u ^^^ (v <<< (Nat.size u - Nat.size v))) + Nat.size v + 1
              ≤ fuel := by
            have := Nat.size_le.mpr hnew
            omega
          refine ih _ _ _ _ hfits ?_ (hu.xor_shift hv _) hv
          have h3 := hcop.add_mul_left_left (X ^ (Nat.size u - Nat.size v))
          rwa [← toPoly_shiftLeft, ← toPoly_xor] at h3

/-- Size bound needed to apply `invLoop_ok` to `inv` itself. -/
theorem inv_ok_of_coprime {M a : ℕ} (hM : M ≠ 0) (ha : a ≠ 0)
    (hcop : IsCoprime (toPoly a) (toPoly M)) :
    ∃ g, inv M a = .ok (reduce M g) ∧ IsComb a M 1 g := by
  have hcomb_u : IsComb a M a 1 := ⟨0, by rw [toPoly_one]; ring⟩
  have hcomb_v : IsComb a M M 0 := ⟨1, by rw [toPoly_zero]; ring⟩
  obtain ⟨g, hg, hcomb⟩ :=
    invLoop_ok a M (Nat.size a + Nat.size M + 1) a M 1 0 le_rfl hcop hcomb_u hcomb_v
  refine ⟨g, ?_, hcomb⟩
  rw [inv, if_neg ha, bitLen_eq_size, bitLen_eq_size, hg]

/-- Irreducibility of the modulus makes every nonzero canonical element
coprime to it. -/
theorem coprime_of_irreducible {M a : ℕ} (hirr : Irreducible (toPoly M))
    (ha : a ≠ 0) (hlt : a < 2 ^ (Nat.size M - 1)) :
    IsCoprime (toPoly a) (toPoly M) := by
  have hM : M ≠ 0 := by
    rintro rfl
    rw [toPoly_zero] at hirr
    exact not_irreducible_zero hirr
  refine IsCoprime.symm ?_
  rw [hirr.coprime_iff_not_dvd]
  intro hdvd
  have hane : toPoly a ≠ 0 := fun h => ha (toPoly_eq_zero_iff.mp h)
  have hdeg := Polynomial.degree_le_of_dvd hdvd hane
  have h1 : (toPoly a).degree < ((Nat.size M - 1 : ℕ) : WithBot ℕ) := by
    calc (toPoly a).degree < ((Nat.size a : ℕ) : WithBot ℕ) := toPoly_degree_lt a
    _ ≤ ((Nat.size M - 1 : ℕ) : WithBot ℕ) := by exact_mod_cast Nat.size_le.mpr hlt
  rw [toPoly_degree_eq hM] at hdeg
  exact absurd (lt_of_le_of_lt hdeg h1) (lt_irrefl _)

/-- Degree of an irreducible modulus is at least 1 (`M ≥ 2`). -/
theorem two_le_size_of_irreducible {M : ℕ} (hirr : Irreducible (toPoly M)) :
    2 ≤ Nat.size M := by
  have hM : M ≠ 0 := by
    rintro rfl
    rw [toPoly_zero] at hirr
    exact not_irreducible_zero hirr
  by_contra h
  push_neg at h
  have h1 : Nat.size M = 1 := by
    have := Nat.size_pos.mpr (Nat.pos_of_ne_zero hM)
    omega
  have : M = 1 := by
    have hlt := Nat.lt_size_self M
    rw [h1] at hlt
    have := Nat.pos_of_ne_zero hM
    omega
  subst this
  rw [toPoly_one] at hirr
  exact hirr.not_unit isUnit_one

/-- Full correctness of `BinaryField.inv` over an irreducible modulus:
the loop terminates and produces the multiplicative inverse. -/
theorem mul_inv_eq_one {M a : ℕ} (hirr : Irreducible (toPoly M)) (ha : a ≠ 0)
    (hlt : a < 2 ^ (Nat.size M - 1)) :
    ∃ r, inv M a = .ok r ∧ mul M a r = 1 := by
  have hM : M ≠ 0 := by
    rintro rfl
    rw [toPoly_zero] at hirr
    exact not_irreducible_zero hirr
  obtain ⟨g, hok, s, hbez⟩ := inv_ok_of_coprime hM ha (coprime_of_irreducible hirr ha hlt)
  rw [toPoly_one] at hbez
  refine ⟨reduce M g, hok, ?_⟩
  apply toPoly_inj
  rw [mul_toPoly hM, toPoly_one]
  have hrg : toPoly (reduce M g) = toPoly g - toPoly M * (toPoly g /ₘ toPoly M) := by
    rw [reduce_toPoly hM, modByMonic_eq_sub_mul_div _ (toPoly_monic hM)]
  have hprod : toPoly a * toPoly (reduce M g) =
      1 + toPoly M * (-s - toPoly a * (toPoly g /ₘ toPoly M)) := by
    rw [hrg, hbez]
    ring
  rw [hprod, add_modByMonic, self_mul_modByMonic (toPoly_monic hM), add_zero]
  rw [modByMonic_eq_self_iff (toPoly_monic hM), toPoly_degree_eq hM, Polynomial.degree_one]
  have h2 : 2 ≤ Nat.size M := two_le_size_of_irreducible hirr
  exact_mod_cast (by omega : 0 < Nat.size M - 1)

end BinaryField

theorem toPoly_two : toPoly 2 = X := by
  rw [toPoly_bit_decomp 2]
  norm_num

/-- **C2.** For both field kinds, `inv` fails with `DivisionByZero` exactly
when its argument is the additive identity (`a ≡ 0 (mod p)` for the prime
field, `a = 0` for the binary field); and for every nonzero canonical
element (`a ∈ [1, p)` with `p` prime; nonzero `a` of degree `< m` with the
reduction polynomial irreducible), `inv a` terminates with a value `r`
such that `mul a r = 1`. -/
theorem field_inv_correct :
    (∀ (p : ℕ) (a : ℤ), p.Prime →
      (PrimeField.inv (p : ℤ) a = .error Err.divisionByZero ↔ a % (p : ℤ) = 0) ∧
        (1 ≤ a → a < (p : ℤ) →
          ∃ r, PrimeField.inv (p : ℤ) a = .ok r ∧ PrimeField.mul (p : ℤ) a r = 1)) ∧
    (∀ M a : ℕ, Irreducible (toPoly M) → a < 2 ^ BinaryField.degree M →
      (BinaryField.inv M a = .error Err.divisionByZero ↔ a = 0) ∧
        (a ≠ 0 →
          ∃ r, BinaryField.inv M a = .ok r ∧ BinaryField.mul M a r = 1)) := by
  constructor
  · intro p a hp
    constructor
    · constructor
      · intro h
        by_contra hmod
        rw [PrimeField.inv, if_neg hmod] at h
        exact Except.noConfusion h
      · intro h
        rw [PrimeField.inv, if_pos h]
    · exact fun h1 h2 => PrimeField.mul_inv_eq_one_p hp h1 h2
  · intro M a hirr hlt
    have hM : M ≠ 0 := by
      rintro rfl
      rw [toPoly_zero] at hirr
      exact not_irreducible_zero hirr
    have hdeg : BinaryField.degree M = Nat.size M - 1 := by
      rw [BinaryField.degree, bitLen_eq_size]
    rw [hdeg] at hlt
    constructor
    · constructor
      · intro h
        by_contra ha
        obtain ⟨r, hr, _⟩ := BinaryField.mul_inv_eq_one hirr ha hlt
        rw [hr] at h
        exact Except.noConfusion h
      · intro h
        rw [BinaryField.inv, if_pos h]
    · exact fun ha => BinaryField.mul_inv_eq_one hirr ha hlt

/-- Witness for C2: prime field `p = 23` at `a = 5`
(`inv 5 = 14`, `5·14 = 70 ≡ 1`), and binary field with modulus `2` (= the
irreducible polynomial `X` over GF(2)) at `a = 1`. -/
theorem field_inv_correct_witness :
    (∃ r, PrimeField.inv (23 : ℤ) 5 = .ok r ∧ PrimeField.mul (23 : ℤ) 5 r = 1) ∧
    (∃ r, BinaryField.inv 2 1 = .ok r ∧ BinaryField.mul 2 1 r = 1) := by
  constructor
  · exact ((field_inv_correct.1 23 5 (by norm_num)).2 (by norm_num) (by norm_num))
  · exact ((field_inv_correct.2 2 1 (toPoly_two ▸ Polynomial.irreducible_X) (by decide)).2
      (by decide))

/-!
## The curves (`PrimeCurve`, `main.py` 152-198; `BinaryCurve`, 200-249)

A `Point` is `Option (coord × coord)` with `none` as the point at infinity
(Python's `None`).  The curve classes store `self.a`, `self.b` already
reduced by the constructor; the operation functions below take the stored
(field, `a`) values as parameters — `b` is not used by any operation.
-/

namespace PrimeCurve

/-- The stored coefficient of `PrimeCurve.__init__` (`main.py` 154-157):
`a % p`. -/
def storedCoeff (p c : ℤ) : ℤ := c % p

/-- `PrimeCurve.double` (`main.py` 176-185). -/
def double (p a : ℤ) : Option (ℤ × ℤ) → Except Err (Option (ℤ × ℤ))
  | none => .ok none
  | some (x1, y1) =>
    if y1 % p = 0 then .ok none
    else do
      let lam ← PrimeField.div p
        (PrimeField.add p (PrimeField.mul p 3 (PrimeField.square p x1)) a)
        (PrimeField.mul p 2 y1)
      let x3 := PrimeField.sub p (PrimeField.square p lam) (PrimeField.mul p 2 x1)
      let y3 := PrimeField.sub p (PrimeField.mul p lam (PrimeField.sub p x1 x3)) y1
      return some (x3, y3)

/-- `PrimeCurve.add` (`main.py` 159-174). -/
def add (p a : ℤ) (p1 p2 : Option (ℤ × ℤ)) : Except Err (Option (ℤ × ℤ)) :=
  match p1, p2 with
  | none, _ => .ok p2
  | _, none => .ok p1
  | some (x1, y1), some (x2, y2) =>
    if x1 = x2 then
      if (y1 + y2) % p = 0 then .ok none
      else double p a (some (x1, y1))
    else do
      let lam ← PrimeField.div p (PrimeField.sub p y2 y1) (PrimeField.sub p x2 x1)
      let x3 := PrimeField.sub p (PrimeField.sub p (PrimeField.square p lam) x1) x2
      let y3 := PrimeField.sub p (PrimeField.mul p lam (PrimeField.sub p x1 x3)) y1
      return some (x3, y3)

/-- The `while k > 0` loop of `PrimeCurve.multiply` (`main.py` 187-198),
with fuel (the fuel `bitLen n` never runs out: `k` halves each pass). -/
def multiplyAux (p a : ℤ) : ℕ → Option (ℤ × ℤ) → Option (ℤ × ℤ) → ℕ →
    Except Err (Option (ℤ × ℤ))
  | 0, result, _, _ => .ok result
  | fuel + 1, result, addend, k =>
    if k = 0 then .ok result
    else do
      let result' ← if k &&& 1 = 1 then add p a result addend else pure result
      let addend' ← double p a addend
      multiplyAux p a fuel result' addend' (k >>> 1)

/-- `PrimeCurve.multiply` (`main.py` 187-198). -/
def multiply (p a : ℤ) (pt : Option (ℤ × ℤ)) (n : ℤ) : Except Err (Option (ℤ × ℤ)) :=
  if n < 0 then .error .invalidScalar
  else multiplyAux p a (bitLen n.toNat) none pt n.toNat

/-- `P` lies on `y² = x³ + ax + b` over GF(p) (with canonical
representatives compared after `% p`); Infinity always does. -/
def onCurve (p a b : ℤ) : Option (ℤ × ℤ) → Prop
  | none => True
  | some (x, y) => (y * y) % p = (x * x * x + a * x + b) % p

/-- Both coordinates of an affine point are canonical (`0 ≤ c < p`);
vacuous at Infinity. -/
def canonical (p : ℤ) : Option (ℤ × ℤ) → Prop
  | none => True
  | some (x, y) => 0 ≤ x ∧ x < p ∧ 0 ≤ y ∧ y < p

instance (p a b : ℤ) (pt : Option (ℤ × ℤ)) : Decidable (onCurve p a b pt) := by
  unfold onCurve
  cases pt with
  | none => exact inferInstanceAs (Decidable True)
  | some xy => exact inferInstanceAs (Decidable (_ = _))

instance (p : ℤ) (pt : Option (ℤ × ℤ)) : Decidable (canonical p pt) := by
  unfold canonical
  cases pt with
  | none => exact inferInstanceAs (Decidable True)
  | some xy => exact inferInstanceAs (Decidable (_ ∧ _))

end PrimeCurve

namespace BinaryCurve

/-- The stored coefficient of `BinaryCurve.__init__` (`main.py` 202-205):
`field.reduce(c)`. -/
def storedCoeff (M c : ℕ) : ℕ := BinaryField.reduce M c

/-- `BinaryCurve.double` (`main.py` 227-236). -/
def double (M a : ℕ) : Option (ℕ × ℕ) → Except Err (Option (ℕ × ℕ))
  | none => .ok none
  | some (x1, y1) =>
    if x1 = 0 then .ok none
    else do
      let q ← BinaryField.div M y1 x1
      let lam := BinaryField.add x1 q
      let x3 := BinaryField.add (BinaryField.add (BinaryField.square M lam) lam) a
      let y3 := BinaryField.add (BinaryField.mul M (BinaryField.add x1 x3) lam)
        (BinaryField.add x3 y1)
      return some (BinaryField.reduce M x3, BinaryField.reduce M y3)

/-- `BinaryCurve.add` (`main.py` 207-225). -/
def add (M a : ℕ) (p1 p2 : Option (ℕ × ℕ)) : Except Err (Option (ℕ × ℕ)) :=
  match p1, p2 with
  | none, _ => .ok p2
  | _, none => .ok p1
  | some (x1, y1), some (x2, y2) =>
    if x1 = x2 then
      if BinaryField.add y1 y2 = x1 then .ok none
      else if y1 = y2 then double M a (some (x1, y1))
      else .error .invalidOperands
    else do
      let lam ← BinaryField.div M (BinaryField.add y1 y2) (BinaryField.add x1 x2)
      let x3 := BinaryField.add
        (BinaryField.add (BinaryField.add (BinaryField.square M lam) lam) x1)
        (BinaryField.add x2 a)
      let y3 := BinaryField.add (BinaryField.mul M (BinaryField.add x1 x3) lam)
        (BinaryField.add x3 y1)
      return some (BinaryField.reduce M x3, BinaryField.reduce M y3)

/-- The `while k > 0` loop of `BinaryCurve.multiply` (`main.py` 238-249),
with fuel (the fuel `bitLen n` never runs out: `k` halves each pass). -/
def multiplyAux (M a : ℕ) : ℕ → Option (ℕ × ℕ) → Option (ℕ × ℕ) → ℕ →
    Except Err (Option (ℕ × ℕ))
  | 0, result, _, _ => .ok result
  | fuel + 1, result, addend, k =>
    if k = 0 then .ok result
    else do
      let result' ← if k &&& 1 = 1 then add M a result addend else pure result
      let addend' ← double M a addend
      multiplyAux M a fuel result' addend' (k >>> 1)

/-- `BinaryCurve.multiply` (`main.py` 238-249); the scalar is a Python
integer (`ℤ`). -/
def multiply (M a : ℕ) (pt : Option (ℕ × ℕ)) (n : ℤ) : Except Err (Option (ℕ × ℕ)) :=
  if n < 0 then .error .invalidScalar
  else multiplyAux M a (bitLen n.toNat) none pt n.toNat

/-- `P` lies on `y² + xy = x³ + ax² + b` over GF(2^m): the two sides agree
as GF(2) polynomials modulo the reduction polynomial `M` (compared through
their canonical remainders); Infinity always does. -/
def onCurve (M a b : ℕ) : Option (ℕ × ℕ) → Prop
  | none => True
  | some (x, y) =>
    BinaryField.reduce M (BinaryField.clmul y y ^^^ BinaryField.clmul x y) =
      BinaryField.reduce M
        (BinaryField.clmul x (BinaryField.clmul x x) ^^^
          BinaryField.clmul a (BinaryField.clmul x x) ^^^ b)

/-- Both coordinates of an affine point are canonical (degree `< m`);
vacuous at Infinity. -/
def canonical (M : ℕ) : Option (ℕ × ℕ) → Prop
  | none => True
  | some (x, y) => x < 2 ^ BinaryField.degree M ∧ y < 2 ^ BinaryField.degree M

instance (M a b : ℕ) (pt : Option (ℕ × ℕ)) : Decidable (onCurve M a b pt) := by
  unfold onCurve
  cases pt with
  | none => exact inferInstanceAs (Decidable True)
  | some xy => exact inferInstanceAs (Decidable (_ = _))

instance (M : ℕ) (pt : Option (ℕ × ℕ)) : Decidable (canonical M pt) := by
  unfold canonical
  cases pt with
  | none => exact inferInstanceAs (Decidable True)
  | some xy => exact inferInstanceAs (Decidable (_ ∧ _))

end BinaryCurve

/-- **C8.** On the binary curve, `add` applied to two affine points with
`x₁ = x₂`, `y₁ + y₂ ≠ x₁` (field addition, i.e. XOR) and `y₁ ≠ y₂` fails
with `InvalidOperands` (`main.py` 220), an error kind distinct from
`DivisionByZero` in the §7 taxonomy. -/
theorem binaryCurve_add_same_x_invalidOperands (M a x1 y1 x2 y2 : ℕ)
    (hx : x1 = x2) (hny : BinaryField.add y1 y2 ≠ x1) (hne : y1 ≠ y2) :
    BinaryCurve.add M a (some (x1, y1)) (some (x2, y2)) = .error Err.invalidOperands ∧
      Err.invalidOperands ≠ Err.divisionByZero := by
  subst hx
  refine ⟨?_, by decide⟩
  rw [BinaryCurve.add, if_pos rfl, if_neg hny, if_neg hne]

/-- Witness for C8: `M = 11`, points `(1, 0)` and `(1, 2)`. -/
theorem binaryCurve_add_same_x_invalidOperands_witness :
    BinaryCurve.add 11 0 (some (1, 0)) (some (1, 2)) = .error Err.invalidOperands ∧
      Err.invalidOperands ≠ Err.divisionByZero :=
  binaryCurve_add_same_x_invalidOperands 11 0 1 0 1 2 rfl (by decide) (by decide)

/-!
## Commutativity of the prime-curve `add` (claim C3, prime half)

All intermediate values are `% p` residues, so the computation transfers
along `Int.cast : ℤ → ZMod p`, where field algebra (plus Fermat's little
theorem for the `pow (·, p-2, p)` inverses) closes the goals; canonical
representatives then transfer equality back to `ℤ`.
-/

namespace PrimeCurve

theorem emod_inj {p : ℕ} [Fact p.Prime] {x y : ℤ} (hx1 : 0 ≤ x) (hx2 : x < (p : ℤ))
    (hy1 : 0 ≤ y) (hy2 : y < (p : ℤ)) (h : (x : ZMod p) = (y : ZMod p)) : x = y := by
  rw [ZMod.intCast_eq_intCast_iff'] at h
  rwa [Int.emod_eq_of_lt hx1 hx2, Int.emod_eq_of_lt hy1 hy2] at h

theorem intCast_eq_zero_iff_emod {p : ℕ} [Fact p.Prime] (x : ℤ) :
    (x : ZMod p) = 0 ↔ x % (p : ℤ) = 0 := by
  rw [ZMod.intCast_zmod_eq_zero_iff_dvd]
  constructor
  · exact Int.emod_eq_zero_of_dvd
  · exact Int.dvd_of_emod_eq_zero

theorem neg_one_pow_two_sub_one : ((-1 : ZMod 2)) ^ (2 - 1) = 1 := by decide

theorem neg_one_pow_card_sub_one {p : ℕ} (hp : p.Prime) [Fact p.Prime] :
    ((-1 : ZMod p)) ^ (p - 1) = 1 := by
  rcases hp.eq_two_or_odd' with h | h
  · subst h
    exact neg_one_pow_two_sub_one
  · exact Even.neg_one_pow (Nat.Odd.sub_odd h odd_one)

theorem inv_ok_of_ne {p : ℕ} [Fact p.Prime] {t : ℤ} (ht : ¬t % (p : ℤ) = 0) :
    PrimeField.inv (p : ℤ) t = .ok (t ^ ((p : ℤ) - 2).toNat % (p : ℤ)) := by
  rw [PrimeField.inv, if_neg ht]

/-- Reduction of `PrimeField.div` when the inverse succeeds. -/
theorem div_ok_of_inv_ok {p a t r : ℤ} (h : PrimeField.inv p t = .ok r) :
    PrimeField.div p a t = .ok (PrimeField.mul p a r) := by
  rw [PrimeField.div, h]
  rfl

/-- Commutativity of `PrimeCurve.add` for points on the curve with
canonical coordinates, over a prime modulus. -/
theorem add_comm_of_onCurve_p {p : ℕ} (hp : p.Prime) (a b : ℤ) (P Q : Option (ℤ × ℤ))
    (hPon : onCurve (p : ℤ) a b P) (hQon : onCurve (p : ℤ) a b Q)
    (hPcan : canonical (p : ℤ) P) (hQcan : canonical (p : ℤ) Q) :
    add (p : ℤ) a P Q = add (p : ℤ) a Q P := by
  haveI : Fact p.Prime := ⟨hp⟩
  have hp2 : 2 ≤ p := hp.two_le
  have hp0 : (0 : ℤ) < (p : ℤ) := by exact_mod_cast hp.pos
  match P, Q with
  | none, none => rfl
  | none, some q => rfl
  | some q, none => rfl
  | some (x1, y1), some (x2, y2) =>
    obtain ⟨hx1a, hx1b, hy1a, hy1b⟩ := hPcan
    obtain ⟨hx2a, hx2b, hy2a, hy2b⟩ := hQcan
    simp only [add]
    by_cases hx : x1 = x2
    · subst hx
      rw [if_pos rfl, if_pos rfl]
      by_cases hy : (y1 + y2) % (p : ℤ) = 0
      · rw [if_pos hy, if_pos (by rwa [Int.add_comm y2 y1])]
      · rw [if_neg hy, if_neg (fun h => hy (by rwa [Int.add_comm y1 y2]))]
        -- on the curve with the same x and not inverses, the y's agree
        have hyy : y1 = y2 := by
          have hcast : ((y1 : ZMod p)) * y1 = ((y2 : ZMod p)) * y2 := by
            rw [onCurve] at hPon hQon
            have h3 : (y1 * y1) % (p : ℤ) = (y2 * y2) % (p : ℤ) := by rw [hPon, hQon]
            have h4 := congrArg (fun z : ℤ => (z : ZMod p)) h3
            simp only [ZMod.intCast_mod] at h4
            push_cast at h4
            exact h4
          have hfac : ((y1 : ZMod p) - y2) * ((y1 : ZMod p) + y2) = 0 := by
            linear_combination hcast
          rcases mul_eq_zero.mp hfac with h0 | h0
          · apply emod_inj hy1a hy1b hy2a hy2b
            rwa [sub_eq_zero] at h0
          · exfalso
            apply hy
            rw [← intCast_eq_zero_iff_emod]
            push_cast
            exact h0
        subst hyy
        rfl
    · rw [if_neg hx, if_neg (Ne.symm hx)]
      -- the chord case: both divisions succeed, results agree mod p
      have hxz : ¬(PrimeField.sub (p : ℤ) x2 x1) % (p : ℤ) = 0 := by
        rw [PrimeField.sub, Int.emod_emod_of_dvd _ (dvd_refl _), ← intCast_eq_zero_iff_emod]
        push_cast
        intro h
        rw [sub_eq_zero] at h
        exact hx (emod_inj hx1a hx1b hx2a hx2b h.symm)
      have hxz' : ¬(PrimeField.sub (p : ℤ) x1 x2) % (p : ℤ) = 0 := by
        rw [PrimeField.sub, Int.emod_emod_of_dvd _ (dvd_refl _), ← intCast_eq_zero_iff_emod]
        push_cast
        intro h
        rw [sub_eq_zero] at h
        exact hx (emod_inj hx1a hx1b hx2a hx2b h)
      rw [div_ok_of_inv_ok (inv_ok_of_ne hxz), div_ok_of_inv_ok (inv_ok_of_ne hxz')]
      simp only [bind, Except.bind, pure, Except.pure]
      set e := ((p : ℤ) - 2).toNat with he
      have hep : e + 1 = p - 1 := by omega
      set L1 : ℤ := PrimeField.mul (p : ℤ) (PrimeField.sub (p : ℤ) y2 y1)
        ((PrimeField.sub (p : ℤ) x2 x1) ^ e % (p : ℤ)) with hL1def
      set L2 : ℤ := PrimeField.mul (p : ℤ) (PrimeField.sub (p : ℤ) y1 y2)
        ((PrimeField.sub (p : ℤ) x1 x2) ^ e % (p : ℤ)) with hL2def
      have hL1c : ((L1 : ℤ) : ZMod p) = ((y2 : ZMod p) - y1) * ((x2 : ZMod p) - x1) ^ e := by
        rw [hL1def, PrimeField.mul, PrimeField.sub, PrimeField.sub]
        push_cast
        ring
      have hL2c : ((L2 : ℤ) : ZMod p) = ((y1 : ZMod p) - y2) * ((x1 : ZMod p) - x2) ^ e := by
        rw [hL2def, PrimeField.mul, PrimeField.sub, PrimeField.sub]
        push_cast
        ring
      have hxne : (x2 : ZMod p) - x1 ≠ 0 := by
        intro h
        apply hxz
        rw [PrimeField.sub, Int.emod_emod_of_dvd _ (dvd_refl _), ← intCast_eq_zero_iff_emod]
        push_cast
        exact h
      have hfermat : ((x2 : ZMod p) - x1) ^ (p - 1) = 1 :=
        ZMod.pow_card_sub_one_eq_one hxne
      have key : ((-1 : ZMod p)) ^ (e + 1) = 1 := by
        rw [hep]
        exact neg_one_pow_card_sub_one hp
      have hLeq : ((L1 : ℤ) : ZMod p) = ((L2 : ℤ) : ZMod p) := by
        have hsub1 : ((x1 : ZMod p) - x2) ^ e =
            (-1 : ZMod p) ^ e * ((x2 : ZMod p) - x1) ^ e := by
          have h7 : ((x1 : ZMod p) - x2) = -((x2 : ZMod p) - x1) := by ring
          rw [h7, neg_pow]
        rw [hL1c, hL2c, hsub1]
        calc ((y2 : ZMod p) - y1) * ((x2 : ZMod p) - x1) ^ e
            = (-1 : ZMod p) ^ (e + 1) * (((y2 : ZMod p) - y1) * ((x2 : ZMod p) - x1) ^ e) := by
              rw [key]
              ring
        _ = ((y1 : ZMod p) - y2) * ((-1 : ZMod p) ^ e * ((x2 : ZMod p) - x1) ^ e) := by
              rw [pow_succ]
              ring
      have hLmul : ((L1 : ℤ) : ZMod p) * ((x1 : ZMod p) - x2) = (y1 : ZMod p) - y2 := by
        rw [hL1c]
        have h6 : ((y2 : ZMod p) - y1) * ((x2 : ZMod p) - x1) ^ e * ((x1 : ZMod p) - x2) =
            -(((y2 : ZMod p) - y1) * (((x2 : ZMod p) - x1) ^ e * ((x2 : ZMod p) - x1))) := by
          ring
        rw [h6, ← pow_succ, hep, hfermat]
        ring
      refine congrArg Except.ok (congrArg some (Prod.ext ?_ ?_))
      · apply emod_inj (Int.emod_nonneg _ (by omega)) (Int.emod_lt_of_pos _ hp0)
          (Int.emod_nonneg _ (by omega)) (Int.emod_lt_of_pos _ hp0)
        simp only [PrimeField.sub, PrimeField.square, PrimeField.mul]
        push_cast
        rw [hLeq]
        ring
      · apply emod_inj (Int.emod_nonneg _ (by omega)) (Int.emod_lt_of_pos _ hp0)
          (Int.emod_nonneg _ (by omega)) (Int.emod_lt_of_pos _ hp0)
        simp only [PrimeField.sub, PrimeField.square, PrimeField.mul]
        push_cast
        rw [hLeq] at hLmul ⊢
        linear_combination hLmul

end PrimeCurve

/-!
## The quotient-ring view of the binary field

`toQuot M : ℕ → AdjoinRoot (toPoly M)` maps a bit-vector to its class in
GF(2)[X]/(M).  Every `BinaryField` operation commutes with it, which turns
bit-twiddling goals into ring algebra.
-/

theorem polyZMod2_neg (P : Polynomial (ZMod 2)) : -P = P := by
  ext j
  rw [Polynomial.coeff_neg]
  exact (by decide : ∀ z : ZMod 2, -z = z) _

theorem polyZMod2_sub_eq_add (P Q : Polynomial (ZMod 2)) : P - Q = P + Q := by
  rw [sub_eq_add_neg, polyZMod2_neg]

namespace BinaryField

/-- The Bézout relation holds whenever the Euclid loop returns, with no
coprimality assumption. -/
theorem invLoop_bezout (a₀ M : ℕ) :
    ∀ fuel u v g1 g2 g, invLoop M fuel u v g1 g2 = some g →
      IsComb a₀ M u g1 → IsComb a₀ M v g2 → IsComb a₀ M 1 g := by
  intro fuel
  induction fuel with
  | zero =>
    intro u v g1 g2 g h
    exact absurd h (by rw [invLoop]; exact Option.noConfusion)
  | succ fuel ih =>
    intro u v g1 g2 g h hu hv
    rw [invLoop] at h
    by_cases hu1 : u = 1
    · subst hu1
      rw [if_pos rfl] at h
      obtain rfl : g1 = g := Option.some_injective _ h
      exact hu
    · rw [if_neg hu1] at h
      by_cases hswap : bitLen u < bitLen v
      · rw [if_pos hswap] at h
        exact ih _ _ _ _ _ h (hv.xor_shift hu _) hu
      · rw [if_neg hswap] at h
        exact ih _ _ _ _ _ h (hu.xor_shift hv _) hv

/-- A successful `inv M t` yields a Bézout inverse of `t` modulo `M`. -/
theorem inv_ok_spec {M t r : ℕ} (hM : M ≠ 0) (h : inv M t = .ok r) :
    ∃ s : Polynomial (ZMod 2),
      (1 : Polynomial (ZMod 2)) = toPoly r * toPoly t + s * toPoly M := by
  rw [inv] at h
  by_cases ht : t = 0
  · rw [if_pos ht] at h
    exact absurd h (by exact fun hc => Except.noConfusion hc)
  · rw [if_neg ht] at h
    cases hloop : invLoop M (bitLen t + bitLen M + 1) t M 1 0 with
    | none =>
      rw [hloop] at h
      exact absurd h (by exact fun hc => Except.noConfusion hc)
    | some g =>
      rw [hloop] at h
      obtain rfl : reduce M g = r := by
        cases h
        rfl
      have hcomb : IsComb t M 1 g :=
        invLoop_bezout t M _ t M 1 0 g hloop
          ⟨0, by rw [toPoly_one]; ring⟩ ⟨1, by rw [toPoly_zero]; ring⟩
      obtain ⟨s, hs⟩ := hcomb
      rw [toPoly_one] at hs
      have hrg : toPoly (reduce M g) = toPoly g - toPoly M * (toPoly g /ₘ toPoly M) := by
        rw [reduce_toPoly hM, modByMonic_eq_sub_mul_div _ (toPoly_monic hM)]
      refine ⟨s + (toPoly g /ₘ toPoly M) * toPoly t, ?_⟩
      rw [hrg, hs]
      ring

/-- The class of a bit-vector in GF(2)[X]/(M). -/
noncomputable def toQuot (M : ℕ) (n : ℕ) : AdjoinRoot (toPoly M) :=
  AdjoinRoot.mk _ (toPoly n)

theorem toQuot_xor (M x y : ℕ) : toQuot M (x ^^^ y) = toQuot M x + toQuot M y := by
  rw [toQuot, toQuot, toQuot, toPoly_xor, map_add]

theorem toQuot_add (M x y : ℕ) : toQuot M (add x y) = toQuot M x + toQuot M y :=
  toQuot_xor M x y

theorem toQuot_one (M : ℕ) : toQuot M 1 = 1 := by
  rw [toQuot, toPoly_one, map_one]

theorem toQuot_reduce {M : ℕ} (hM : M ≠ 0) (v : ℕ) : toQuot M (reduce M v) = toQuot M v := by
  rw [toQuot, toQuot, reduce_toPoly hM, modByMonic_eq_sub_mul_div _ (toPoly_monic hM),
    map_sub, map_mul, AdjoinRoot.mk_self]
  ring

theorem toQuot_mul {M : ℕ} (hM : M ≠ 0) (x y : ℕ) :
    toQuot M (mul M x y) = toQuot M x * toQuot M y := by
  rw [toQuot, toQuot, toQuot, mul_toPoly hM, modByMonic_eq_sub_mul_div _ (toPoly_monic hM),
    map_sub, map_mul, map_mul, AdjoinRoot.mk_self]
  ring

theorem toQuot_inv {M t r : ℕ} (hM : M ≠ 0) (h : inv M t = .ok r) :
    toQuot M t * toQuot M r = 1 := by
  obtain ⟨s, hs⟩ := inv_ok_spec hM h
  have := congrArg (AdjoinRoot.mk (toPoly M)) hs
  rw [map_one, map_add, map_mul, map_mul, AdjoinRoot.mk_self, mul_zero, add_zero] at this
  rw [mul_comm]
  exact this.symm

theorem toQuot_neg {M : ℕ} (z : AdjoinRoot (toPoly M)) : -z = z := by
  obtain ⟨P, rfl⟩ := AdjoinRoot.mk_surjective z
  rw [← map_neg, polyZMod2_neg]

/-- A polynomial multiple of `M` encoded by a canonical bit-vector is zero. -/
theorem canonical_dvd_eq_zero {M w : ℕ} (hM : M ≠ 0) (hw : w < 2 ^ (Nat.size M - 1))
    (hdvd : toPoly M ∣ toPoly w) : w = 0 := by
  by_contra hw0
  have hdeg := Polynomial.degree_le_of_dvd hdvd (fun h => hw0 (toPoly_eq_zero_iff.mp h))
  rw [toPoly_degree_eq hM] at hdeg
  have h1 : (toPoly w).degree < ((Nat.size M - 1 : ℕ) : WithBot ℕ) := by
    calc (toPoly w).degree < ((Nat.size w : ℕ) : WithBot ℕ) := toPoly_degree_lt w
    _ ≤ ((Nat.size M - 1 : ℕ) : WithBot ℕ) := by exact_mod_cast Nat.size_le.mpr hw
  exact absurd (lt_of_le_of_lt hdeg h1) (lt_irrefl _)

theorem toQuot_inj {M x y : ℕ} (hM : M ≠ 0) (hx : x < 2 ^ (Nat.size M - 1))
    (hy : y < 2 ^ (Nat.size M - 1)) (h : toQuot M x = toQuot M y) : x = y := by
  rw [toQuot, toQuot, AdjoinRoot.mk_eq_mk, polyZMod2_sub_eq_add, ← toPoly_xor] at h
  have hxor : x ^^^ y < 2 ^ (Nat.size M - 1) := Nat.xor_lt_two_pow hx hy
  have := canonical_dvd_eq_zero hM hxor h
  exact Nat.xor_eq_zero.mp this

/-- Two values with equal classes have equal `reduce`s. -/
theorem reduce_eq_reduce_of_toQuot_eq {M y y' : ℕ} (hM : M ≠ 0)
    (h : toQuot M y = toQuot M y') : reduce M y = reduce M y' :=
  toQuot_inj hM (reduce_lt hM y) (reduce_lt hM y')
    (by rw [toQuot_reduce hM, toQuot_reduce hM, h])

end BinaryField

theorem xor_rearrange (s x y c : ℕ) :
    s ^^^ x ^^^ (y ^^^ c) = s ^^^ y ^^^ (x ^^^ c) := by
  apply Nat.eq_of_testBit_eq
  intro i
  simp only [Nat.testBit_xor]
  cases s.testBit i <;> cases x.testBit i <;> cases y.testBit i <;> cases c.testBit i <;> rfl

namespace BinaryCurve

theorem add_comm_of_onCurve {M : ℕ} (hM : M ≠ 0) (a b : ℕ) (P Q : Option (ℕ × ℕ))
    (hPon : onCurve M a b P) (hQon : onCurve M a b Q)
    (hPcan : canonical M P) (hQcan : canonical M Q) :
    add M a P Q = add M a Q P := by
  match P, Q with
  | none, none => rfl
  | none, some q => rfl
  | some q, none => rfl
  | some (x1, y1), some (x2, y2) =>
    simp only [add]
    by_cases hx : x1 = x2
    · subst hx
      rw [if_pos rfl, if_pos rfl]
      by_cases h1 : BinaryField.add y1 y2 = x1
      · rw [if_pos h1, if_pos (show BinaryField.add y2 y1 = x1 by
          rwa [BinaryField.add, Nat.xor_comm y2 y1])]
      · rw [if_neg h1, if_neg (show ¬BinaryField.add y2 y1 = x1 by
          rw [BinaryField.add, Nat.xor_comm y2 y1]
          exact h1)]
        by_cases h2 : y1 = y2
        · subst h2
          rfl
        · rw [if_neg h2, if_neg (Ne.symm h2)]
    · rw [if_neg hx, if_neg (Ne.symm hx)]
      have hy21 : BinaryField.add y2 y1 = BinaryField.add y1 y2 := by
        rw [BinaryField.add, BinaryField.add, Nat.xor_comm]
      have hx21 : BinaryField.add x2 x1 = BinaryField.add x1 x2 := by
        rw [BinaryField.add, BinaryField.add, Nat.xor_comm]
      rw [hy21, hx21]
      cases hdiv : BinaryField.div M (BinaryField.add y1 y2) (BinaryField.add x1 x2) with
      | error e => simp only [hdiv, bind, Except.bind]
      | ok lam =>
        simp only [hdiv, bind, Except.bind, pure, Except.pure]
        -- extract the Bézout inverse used to build `lam`
        obtain ⟨g, hinv, hlam⟩ : ∃ g, BinaryField.inv M (BinaryField.add x1 x2) = .ok g ∧
            BinaryField.mul M (BinaryField.add y1 y2) g = lam := by
          cases hinv : BinaryField.inv M (BinaryField.add x1 x2) with
          | error e =>
            rw [BinaryField.div, hinv] at hdiv
            exact absurd hdiv (by exact fun hc => Except.noConfusion hc)
          | ok g =>
            rw [BinaryField.div, hinv] at hdiv
            refine ⟨g, rfl, ?_⟩
            cases hdiv
            rfl
        have hx3 : BinaryField.add (BinaryField.add
              (BinaryField.add (BinaryField.square M lam) lam) x1)
              (BinaryField.add x2 a) =
            BinaryField.add (BinaryField.add
              (BinaryField.add (BinaryField.square M lam) lam) x2)
              (BinaryField.add x1 a) := by
          simp only [BinaryField.add]
          exact xor_rearrange _ x1 x2 a
        rw [hx3]
        refine congrArg Except.ok (congrArg some (Prod.ext rfl ?_))
        -- the y-coordinates agree modulo M
        apply BinaryField.reduce_eq_reduce_of_toQuot_eq hM
        set x3 := BinaryField.add (BinaryField.add
          (BinaryField.add (BinaryField.square M lam) lam) x2)
          (BinaryField.add x1 a) with hx3def
        have hlamQ : BinaryField.toQuot M lam =
            (BinaryField.toQuot M y1 + BinaryField.toQuot M y2) * BinaryField.toQuot M g := by
          rw [← hlam, BinaryField.toQuot_mul hM, BinaryField.toQuot_add]
        have hinvQ : (BinaryField.toQuot M x1 + BinaryField.toQuot M x2) *
            BinaryField.toQuot M g = 1 := by
          rw [← BinaryField.toQuot_add]
          exact BinaryField.toQuot_inv hM hinv
        have htwo : (2 : AdjoinRoot (toPoly M)) = 0 := by
          have h := BinaryField.toQuot_neg (M := M) 1
          calc (2 : AdjoinRoot (toPoly M)) = 1 + 1 := by norm_num
          _ = 1 + -1 := by rw [h]
          _ = 0 := by ring
        simp only [BinaryField.toQuot_add, BinaryField.toQuot_mul hM]
        have e1 : (BinaryField.toQuot M x1 + BinaryField.toQuot M x2) *
            BinaryField.toQuot M lam =
              BinaryField.toQuot M y1 + BinaryField.toQuot M y2 := by
          calc (BinaryField.toQuot M x1 + BinaryField.toQuot M x2) *
              BinaryField.toQuot M lam
              = ((BinaryField.toQuot M x1 + BinaryField.toQuot M x2) *
                BinaryField.toQuot M g) *
                  (BinaryField.toQuot M y1 + BinaryField.toQuot M y2) := by
                rw [hlamQ]
                ring
          _ = BinaryField.toQuot M y1 + BinaryField.toQuot M y2 := by
                rw [hinvQ, one_mul]
        linear_combination e1 + (BinaryField.toQuot M y1 -
          BinaryField.toQuot M x2 * BinaryField.toQuot M lam) * htwo

end BinaryCurve

theorem BinaryField.ne_zero_of_irreducible {M : ℕ} (h : Irreducible (toPoly M)) :
    M ≠ 0 := by
  rintro rfl
  rw [toPoly_zero] at h
  exact not_irreducible_zero h

/-- **C3.** For either curve variant and all points `P`, `Q` lying on the
curve (Infinity included, with canonical coordinates, over a valid field:
prime `p`, irreducible reduction polynomial), `add P Q = add Q P` —
including agreement of the error outcome on the binary curve. -/
theorem curve_add_comm :
    (∀ (p : ℕ) (a b : ℤ) (P Q : Option (ℤ × ℤ)), p.Prime →
      PrimeCurve.onCurve (p : ℤ) a b P → PrimeCurve.onCurve (p : ℤ) a b Q →
      PrimeCurve.canonical (p : ℤ) P → PrimeCurve.canonical (p : ℤ) Q →
      PrimeCurve.add (p : ℤ) a P Q = PrimeCurve.add (p : ℤ) a Q P) ∧
    (∀ (M a b : ℕ) (P Q : Option (ℕ × ℕ)), Irreducible (toPoly M) →
      BinaryCurve.onCurve M a b P → BinaryCurve.onCurve M a b Q →
      BinaryCurve.canonical M P → BinaryCurve.canonical M Q →
      BinaryCurve.add M a P Q = BinaryCurve.add M a Q P) := by
  constructor
  · intro p a b P Q hp hPon hQon hPcan hQcan
    exact PrimeCurve.add_comm_of_onCurve_p hp a b P Q hPon hQon hPcan hQcan
  · intro M a b P Q hirr hPon hQon hPcan hQcan
    exact BinaryCurve.add_comm_of_onCurve (BinaryField.ne_zero_of_irreducible hirr)
      a b P Q hPon hQon hPcan hQcan

/-- Witness for C3: the prime curve `y² = x³ + x + 1` over GF(23) at
`(3,10)`, `(3,13)`, and the binary curve `y² + xy = x³ + 1` over GF(2)
(modulus `X`) at `(1,0)`, `(1,1)`. -/
theorem curve_add_comm_witness :
    PrimeCurve.add ((23 : ℕ) : ℤ) 1 (some (3, 10)) (some (3, 13)) =
        PrimeCurve.add ((23 : ℕ) : ℤ) 1 (some (3, 13)) (some (3, 10)) ∧
      BinaryCurve.add 2 0 (some (1, 0)) (some (1, 1)) =
        BinaryCurve.add 2 0 (some (1, 1)) (some (1, 0)) := by
  constructor
  · exact curve_add_comm.1 23 1 1 (some (3, 10)) (some (3, 13)) (by norm_num)
      (by decide) (by decide) (by decide) (by decide)
  · exact curve_add_comm.2 2 0 1 (some (1, 0)) (some (1, 1))
      (toPoly_two ▸ Polynomial.irreducible_X) (by decide) (by decide) (by decide) (by decide)

/-!
## Canonical-form invariant (claim C9)

Every affine coordinate a curve operation produces goes through `% p`
(prime) or `reduce` (binary), so outputs are canonical whenever inputs are.
-/

namespace PrimeCurve

theorem double_canonical_p {p a : ℤ} (hp : 0 < p) {P R : Option (ℤ × ℤ)}
    (h : double p a P = .ok R) : canonical p R := by
  match P with
  | none =>
    cases h
    trivial
  | some (x1, y1) =>
    rw [double] at h
    by_cases hy : y1 % p = 0
    · rw [if_pos hy] at h
      cases h
      trivial
    · rw [if_neg hy] at h
      cases hdiv : PrimeField.div p
          (PrimeField.add p (PrimeField.mul p 3 (PrimeField.square p x1)) a)
          (PrimeField.mul p 2 y1) with
      | error e =>
        rw [hdiv] at h
        exact absurd h (by exact fun hc => Except.noConfusion hc)
      | ok lam =>
        rw [hdiv] at h
        cases h
        exact ⟨Int.emod_nonneg _ (by omega), Int.emod_lt_of_pos _ hp,
          Int.emod_nonneg _ (by omega), Int.emod_lt_of_pos _ hp⟩

theorem add_canonical_p {p a : ℤ} (hp : 0 < p) {P Q R : Option (ℤ × ℤ)}
    (hP : canonical p P) (hQ : canonical p Q)
    (h : add p a P Q = .ok R) : canonical p R := by
  match P, Q with
  | none, none =>
    cases h
    trivial
  | none, some q =>
    cases h
    exact hQ
  | some q, none =>
    cases h
    exact hP
  | some (x1, y1), some (x2, y2) =>
    rw [add] at h
    by_cases hx : x1 = x2
    · rw [if_pos hx] at h
      by_cases hy : (y1 + y2) % p = 0
      · rw [if_pos hy] at h
        cases h
        trivial
      · rw [if_neg hy] at h
        exact double_canonical_p hp h
    · rw [if_neg hx] at h
      cases hdiv : PrimeField.div p (PrimeField.sub p y2 y1) (PrimeField.sub p x2 x1) with
      | error e =>
        rw [hdiv] at h
        exact absurd h (by exact fun hc => Except.noConfusion hc)
      | ok lam =>
        rw [hdiv] at h
        cases h
        exact ⟨Int.emod_nonneg _ (by omega), Int.emod_lt_of_pos _ hp,
          Int.emod_nonneg _ (by omega), Int.emod_lt_of_pos _ hp⟩

theorem multiplyAux_canonical_p {p a : ℤ} (hp : 0 < p) :
    ∀ (fuel : ℕ) {result addend : Option (ℤ × ℤ)} {k : ℕ} {R : Option (ℤ × ℤ)},
      canonical p result → canonical p addend →
      multiplyAux p a fuel result addend k = .ok R → canonical p R := by
  intro fuel
  induction fuel with
  | zero =>
    intro result addend k R hres _ h
    cases h
    exact hres
  | succ fuel ih =>
    intro result addend k R hres hadd h
    rw [multiplyAux] at h
    by_cases hk : k = 0
    · rw [if_pos hk] at h
      cases h
      exact hres
    · rw [if_neg hk] at h
      have hstep : ∀ result2 : Option (ℤ × ℤ),
          canonical p result2 →
          (do
            let addend' ← double p a addend
            multiplyAux p a fuel result2 addend' (k >>> 1)) = .ok R →
          canonical p R := by
        intro result2 hres2can hh
        cases hadd' : double p a addend with
        | error e =>
          rw [hadd'] at hh
          exact absurd hh (by exact fun hc => Except.noConfusion hc)
        | ok addend' =>
          rw [hadd'] at hh
          exact ih hres2can (double_canonical_p hp hadd') hh
      by_cases hbit : k &&& 1 = 1
      · rw [if_pos hbit] at h
        cases hadd1 : add p a result addend with
        | error e =>
          rw [hadd1] at h
          exact absurd h (by exact fun hc => Except.noConfusion hc)
        | ok result2 =>
          rw [hadd1] at h
          exact hstep result2 (add_canonical_p hp hres hadd hadd1) h
      · rw [if_neg hbit] at h
        exact hstep result hres h

theorem multiply_canonical_p {p a : ℤ} (hp : 0 < p) {P R : Option (ℤ × ℤ)} {n : ℤ}
    (hP : canonical p P) (h : multiply p a P n = .ok R) : canonical p R := by
  rw [multiply] at h
  by_cases hn : n < 0
  · rw [if_pos hn] at h
    exact absurd h (by exact fun hc => Except.noConfusion hc)
  · rw [if_neg hn] at h
    exact multiplyAux_canonical_p hp _ (show canonical p none from trivial) hP h

end PrimeCurve

namespace BinaryCurve

theorem double_canonical {M a : ℕ} (hM : M ≠ 0) {P R : Option (ℕ × ℕ)}
    (h : double M a P = .ok R) : canonical M R := by
  have hdeg : BinaryField.degree M = Nat.size M - 1 := by
    rw [BinaryField.degree, bitLen_eq_size]
  match P with
  | none =>
    cases h
    trivial
  | some (x1, y1) =>
    rw [double] at h
    by_cases hx : x1 = 0
    · rw [if_pos hx] at h
      cases h
      trivial
    · rw [if_neg hx] at h
      cases hdiv : BinaryField.div M y1 x1 with
      | error e =>
        rw [hdiv] at h
        exact absurd h (by exact fun hc => Except.noConfusion hc)
      | ok q =>
        rw [hdiv] at h
        cases h
        rw [canonical, hdeg]
        exact ⟨BinaryField.reduce_lt hM _, BinaryField.reduce_lt hM _⟩

theorem add_canonical {M a : ℕ} (hM : M ≠ 0) {P Q R : Option (ℕ × ℕ)}
    (hP : canonical M P) (hQ : canonical M Q)
    (h : add M a P Q = .ok R) : canonical M R := by
  have hdeg : BinaryField.degree M = Nat.size M - 1 := by
    rw [BinaryField.degree, bitLen_eq_size]
  match P, Q with
  | none, none =>
    cases h
    trivial
  | none, some q =>
    cases h
    exact hQ
  | some q, none =>
    cases h
    exact hP
  | some (x1, y1), some (x2, y2) =>
    rw [add] at h
    by_cases hx : x1 = x2
    · rw [if_pos hx] at h
      by_cases hinv : BinaryField.add y1 y2 = x1
      · rw [if_pos hinv] at h
        cases h
        trivial
      · rw [if_neg hinv] at h
        by_cases hyy : y1 = y2
        · rw [if_pos hyy] at h
          exact double_canonical hM h
        · rw [if_neg hyy] at h
          exact absurd h (by exact fun hc => Except.noConfusion hc)
    · rw [if_neg hx] at h
      cases hdiv : BinaryField.div M (BinaryField.add y1 y2) (BinaryField.add x1 x2) with
      | error e =>
        rw [hdiv] at h
        exact absurd h (by exact fun hc => Except.noConfusion hc)
      | ok lam =>
        rw [hdiv] at h
        cases h
        rw [canonical, hdeg]
        exact ⟨BinaryField.reduce_lt hM _, BinaryField.reduce_lt hM _⟩

theorem multiplyAux_canonical {M a : ℕ} (hM : M ≠ 0) :
    ∀ (fuel : ℕ) {result addend : Option (ℕ × ℕ)} {k : ℕ} {R : Option (ℕ × ℕ)},
      canonical M result → canonical M addend →
      multiplyAux M a fuel result addend k = .ok R → canonical M R := by
  intro fuel
  induction fuel with
  | zero =>
    intro result addend k R hres _ h
    cases h
    exact hres
  | succ fuel ih =>
    intro result addend k R hres hadd h
    rw [multiplyAux] at h
    by_cases hk : k = 0
    · rw [if_pos hk] at h
      cases h
      exact hres
    · rw [if_neg hk] at h
      have hstep : ∀ result2 : Option (ℕ × ℕ),
          canonical M result2 →
          (do
            let addend' ← double M a addend
            multiplyAux M a fuel result2 addend' (k >>> 1)) = .ok R →
          canonical M R := by
        intro result2 hres2can hh
        cases hadd' : double M a addend with
        | error e =>
          rw [hadd'] at hh
          exact absurd hh (by exact fun hc => Except.noConfusion hc)
        | ok addend' =>
          rw [hadd'] at hh
          exact ih hres2can (double_canonical hM hadd') hh
      by_cases hbit : k &&& 1 = 1
      · rw [if_pos hbit] at h
        cases hadd1 : add M a result addend with
        | error e =>
          rw [hadd1] at h
          exact absurd h (by exact fun hc => Except.noConfusion hc)
        | ok result2 =>
          rw [hadd1] at h
          exact hstep result2 (add_canonical hM hres hadd hadd1) h
      · rw [if_neg hbit] at h
        exact hstep result hres h

theorem multiply_canonical {M a : ℕ} (hM : M ≠ 0) {P R : Option (ℕ × ℕ)} {n : ℤ}
    (hP : canonical M P) (h : multiply M a P n = .ok R) : canonical M R := by
  rw [multiply] at h
  by_cases hn : n < 0
  · rw [if_pos hn] at h
    exact absurd h (by exact fun hc => Except.noConfusion hc)
  · rw [if_neg hn] at h
    exact multiplyAux_canonical hM _ (show canonical M none from trivial) hP h

end BinaryCurve

/-- **C9.** Canonical-form invariant: curve coefficients are reduced into
the field's canonical form at construction (`a % p`, `reduce a`), and for
every curve operation of either variant whose affine input points have
canonical coordinates, every affine point it returns also has canonical
coordinates (integers in `[0, p)`; polynomials of degree `< m`). -/
theorem canonical_form_invariant :
    (∀ p c : ℤ, 0 < p →
      0 ≤ PrimeCurve.storedCoeff p c ∧ PrimeCurve.storedCoeff p c < p) ∧
    (∀ M c : ℕ, M ≠ 0 → BinaryCurve.storedCoeff M c < 2 ^ BinaryField.degree M) ∧
    (∀ (p a : ℤ) (P Q R : Option (ℤ × ℤ)), 0 < p →
      PrimeCurve.canonical p P → PrimeCurve.canonical p Q →
      PrimeCurve.add p a P Q = .ok R → PrimeCurve.canonical p R) ∧
    (∀ (p a : ℤ) (P R : Option (ℤ × ℤ)), 0 < p → PrimeCurve.canonical p P →
      PrimeCurve.double p a P = .ok R → PrimeCurve.canonical p R) ∧
    (∀ (p a : ℤ) (P R : Option (ℤ × ℤ)) (n : ℤ), 0 < p → PrimeCurve.canonical p P →
      PrimeCurve.multiply p a P n = .ok R → PrimeCurve.canonical p R) ∧
    (∀ (M a : ℕ) (P Q R : Option (ℕ × ℕ)), M ≠ 0 →
      BinaryCurve.canonical M P → BinaryCurve.canonical M Q →
      BinaryCurve.add M a P Q = .ok R → BinaryCurve.canonical M R) ∧
    (∀ (M a : ℕ) (P R : Option (ℕ × ℕ)), M ≠ 0 → BinaryCurve.canonical M P →
      BinaryCurve.double M a P = .ok R → BinaryCurve.canonical M R) ∧
    (∀ (M a : ℕ) (P R : Option (ℕ × ℕ)) (n : ℤ), M ≠ 0 → BinaryCurve.canonical M P →
      BinaryCurve.multiply M a P n = .ok R → BinaryCurve.canonical M R) := by
  refine ⟨?_, ?_, ?_, ?_, ?_, ?_, ?_, ?_⟩
  · intro p c hp
    exact ⟨Int.emod_nonneg _ (by omega), Int.emod_lt_of_pos _ hp⟩
  · intro M c hM
    rw [BinaryCurve.storedCoeff, BinaryField.degree, bitLen_eq_size]
    exact BinaryField.reduce_lt hM c
  · intro p a P Q R hp hP hQ h
    exact PrimeCurve.add_canonical_p hp hP hQ h
  · intro p a P R hp _ h
    exact PrimeCurve.double_canonical_p hp h
  · intro p a P R n hp hP h
    exact PrimeCurve.multiply_canonical_p hp hP h
  · intro M a P Q R hM hP hQ h
    exact BinaryCurve.add_canonical hM hP hQ h
  · intro M a P R hM _ h
    exact BinaryCurve.double_canonical hM h
  · intro M a P R n hM hP h
    exact BinaryCurve.multiply_canonical hM hP h

/-- Witness for C9: coefficient reduction at `p = 23`, `M = 11`, and the
`add`/`double`/`multiply` cases at concrete points. -/
theorem canonical_form_invariant_witness :
    (0 ≤ PrimeCurve.storedCoeff 23 30 ∧ PrimeCurve.storedCoeff 23 30 < 23) ∧
    (BinaryCurve.storedCoeff 11 30 < 2 ^ BinaryField.degree 11) ∧
    PrimeCurve.canonical 23 (some (3, 10)) ∧
    PrimeCurve.canonical 23 (none : Option (ℤ × ℤ)) ∧
    BinaryCurve.canonical 11 (some (2, 3)) ∧
    BinaryCurve.canonical 11 (none : Option (ℕ × ℕ)) := by
  refine ⟨?_, ?_, ?_, ?_, ?_, ?_⟩
  · exact canonical_form_invariant.1 23 30 (by norm_num)
  · exact canonical_form_invariant.2.1 11 30 (by norm_num)
  · exact canonical_form_invariant.2.2.1 23 1 none (some (3, 10)) (some (3, 10))
      (by norm_num) (by decide) (by decide) rfl
  · exact canonical_form_invariant.2.2.2.2.1 23 1 (some (3, 10)) none 0
      (by norm_num) (by decide) rfl
  · exact canonical_form_invariant.2.2.2.2.2.1 11 1 none (some (2, 3)) (some (2, 3))
      (by norm_num) (by decide) (by decide) rfl
  · exact canonical_form_invariant.2.2.2.2.2.2.2 11 1 (some (2, 3)) none 0
      (by norm_num) (by decide) rfl

/-!
## The binary curve as a Weierstrass curve over GF(2^m) (for claim C4)

`y² + xy = x³ + ax² + b` is the Weierstrass curve `(a₁,a₂,a₃,a₄,a₆) =
(1, a, 0, 0, b)` over the field `AdjoinRoot (toPoly M)`; Mathlib's affine
group law supplies the closure and same-`x` dichotomy facts.
-/

namespace BinaryField

theorem toQuot_zero (M : ℕ) : toQuot M 0 = 0 := by
  rw [toQuot, toPoly_zero, map_zero]

theorem toQuot_clmul {M : ℕ} (x y : ℕ) :
    toQuot M (clmul x y) = toQuot M x * toQuot M y := by
  rw [toQuot, toQuot, toQuot, clmul_toPoly, map_mul]

theorem quot_sub_eq_add {M : ℕ} (z w : AdjoinRoot (toPoly M)) : z - w = z + w := by
  rw [sub_eq_add_neg, toQuot_neg]

theorem quot_add_self {M : ℕ} (z : AdjoinRoot (toPoly M)) : z + z = 0 := by
  rw [← quot_sub_eq_add]
  ring

theorem quot_two_eq_zero (M : ℕ) : (2 : AdjoinRoot (toPoly M)) = 0 := by
  have := quot_add_self (M := M) 1
  calc (2 : AdjoinRoot (toPoly M)) = 1 + 1 := by norm_num
  _ = 0 := this

theorem reduce_eq_iff_toQuot_eq {M : ℕ} (hM : M ≠ 0) {u v : ℕ} :
    reduce M u = reduce M v ↔ toQuot M u = toQuot M v := by
  constructor
  · intro h
    rw [← toQuot_reduce hM u, ← toQuot_reduce hM v, h]
  · exact reduce_eq_reduce_of_toQuot_eq hM

/-- The `inv` call on a nonzero canonical element of a field with
irreducible modulus succeeds. -/
theorem inv_ok_of_irreducible {M t : ℕ} (hirr : Irreducible (toPoly M))
    (ht : t ≠ 0) (hlt : t < 2 ^ (Nat.size M - 1)) : ∃ g, inv M t = .ok g := by
  obtain ⟨g, hg, _⟩ := inv_ok_of_coprime (ne_zero_of_irreducible hirr) ht
    (coprime_of_irreducible hirr ht hlt)
  exact ⟨reduce M g, hg⟩

end BinaryField

namespace BinaryCurve

open BinaryField WeierstrassCurve

/-- The binary curve as a Weierstrass curve over GF(2)[X]/(M). -/
noncomputable def W (M a b : ℕ) : Affine (AdjoinRoot (toPoly M)) :=
  { a₁ := 1, a₂ := toQuot M a, a₃ := 0, a₄ := 0, a₆ := toQuot M b }

theorem onCurve_iff_equation {M : ℕ} (hM : M ≠ 0) (a b x y : ℕ) :
    onCurve M a b (some (x, y)) ↔ (W M a b).Equation (toQuot M x) (toQuot M y) := by
  rw [onCurve, reduce_eq_iff_toQuot_eq hM, Affine.equation_iff]
  simp only [toQuot_xor, toQuot_clmul, W]
  constructor
  · intro h
    linear_combination h
  · intro h
    linear_combination h

theorem negY_eq {M a b : ℕ} (x y : AdjoinRoot (toPoly M)) :
    (W M a b).negY x y = y + x := by
  rw [Affine.negY, W]
  simp only []
  rw [quot_sub_eq_add, quot_sub_eq_add, toQuot_neg]
  ring

/-- Same-`x` dichotomy on the binary curve: two on-curve canonical points
sharing an `x`-coordinate are equal or mutual inverses. -/
theorem same_x_cases {M a b x1 y1 y2 : ℕ} (hirr : Irreducible (toPoly M))
    (h1 : onCurve M a b (some (x1, y1))) (h2 : onCurve M a b (some (x1, y2)))
    (hy1 : y1 < 2 ^ (Nat.size M - 1)) (hy2 : y2 < 2 ^ (Nat.size M - 1))
    (hx1 : x1 < 2 ^ (Nat.size M - 1)) :
    y1 = y2 ∨ BinaryField.add y1 y2 = x1 := by
  haveI : Fact (Irreducible (toPoly M)) := ⟨hirr⟩
  have hM : M ≠ 0 := ne_zero_of_irreducible hirr
  rw [onCurve_iff_equation hM] at h1 h2
  rcases Affine.Y_eq_of_X_eq h1 h2 rfl with h | h
  · left
    exact toQuot_inj hM hy1 hy2 h
  · right
    rw [negY_eq] at h
    have h3 : toQuot M y1 = toQuot M (y2 ^^^ x1) := by
      rw [toQuot_xor]
      exact h
    have h4 : y1 = y2 ^^^ x1 :=
      toQuot_inj hM hy1 (Nat.xor_lt_two_pow hy2 hx1) h3
    rw [BinaryField.add, h4, Nat.xor_comm y2 x1, Nat.xor_assoc, Nat.xor_self, Nat.xor_zero]

end BinaryCurve

namespace BinaryCurve

open BinaryField WeierstrassCurve

theorem toQuot_ne_zero {M x : ℕ} (hM : M ≠ 0) (hx : x ≠ 0)
    (hlt : x < 2 ^ (Nat.size M - 1)) : toQuot M x ≠ 0 := by
  intro h
  rw [← toQuot_zero M] at h
  exact hx (toQuot_inj hM hlt (Nat.pos_pow_of_pos _ (by norm_num)) h)

/-- Packaging of Mathlib's `equation_add`: if the code's (unreduced) output
coordinates have the classes `addX`/`addY` at the slope, the reduced output
point is on the curve. -/
theorem onCurve_of_formulas {M a b x1 x2 y1 y2 x3 y3 : ℕ}
    [Fact (Irreducible (toPoly M))]
    (h1W : (W M a b).Equation (toQuot M x1) (toQuot M y1))
    (h2W : (W M a b).Equation (toQuot M x2) (toQuot M y2))
    (hxy : toQuot M x1 = toQuot M x2 →
      toQuot M y1 ≠ (W M a b).negY (toQuot M x2) (toQuot M y2))
    (hx3Q : toQuot M x3 = (W M a b).addX (toQuot M x1) (toQuot M x2)
      ((W M a b).slope (toQuot M x1) (toQuot M x2) (toQuot M y1) (toQuot M y2)))
    (hy3Q : toQuot M y3 = (W M a b).addY (toQuot M x1) (toQuot M x2) (toQuot M y1)
      ((W M a b).slope (toQuot M x1) (toQuot M x2) (toQuot M y1) (toQuot M y2))) :
    onCurve M a b (some (reduce M x3, reduce M y3)) := by
  have hM : M ≠ 0 := ne_zero_of_irreducible (Fact.out : Irreducible (toPoly M))
  rw [onCurve_iff_equation hM, toQuot_reduce hM, toQuot_reduce hM, hx3Q, hy3Q]
  exact Affine.equation_add h1W h2W hxy

/-- The class of the chord `x₃` formula of `BinaryCurve.add`. -/
theorem chord_x3Q {M a b x1 x2 lam : ℕ} (hM : M ≠ 0) :
    toQuot M (BinaryField.add (BinaryField.add
        (BinaryField.add (BinaryField.square M lam) lam) x1)
        (BinaryField.add x2 a)) =
      (W M a b).addX (toQuot M x1) (toQuot M x2) (toQuot M lam) := by
  simp only [toQuot_add, BinaryField.square, toQuot_mul hM, Affine.addX, W]
  linear_combination (toQuot M a + toQuot M x1 + toQuot M x2) * quot_two_eq_zero M

/-- The class of the tangent `x₃` formula of `BinaryCurve.double`. -/
theorem tangent_x3Q {M a b x1 lam : ℕ} (hM : M ≠ 0) :
    toQuot M (BinaryField.add (BinaryField.add (BinaryField.square M lam) lam) a) =
      (W M a b).addX (toQuot M x1) (toQuot M x1) (toQuot M lam) := by
  simp only [toQuot_add, BinaryField.square, toQuot_mul hM, Affine.addX, W]
  linear_combination (toQuot M a + toQuot M x1) * quot_two_eq_zero M

/-- The class of the shared `y₃` formula, given the `x₃` one. -/
theorem shared_y3Q {M a b x1 x2 y1 lam x3 : ℕ} (hM : M ≠ 0)
    (hx3Q : toQuot M x3 = (W M a b).addX (toQuot M x1) (toQuot M x2) (toQuot M lam)) :
    toQuot M (BinaryField.add (BinaryField.mul M (BinaryField.add x1 x3) lam)
        (BinaryField.add x3 y1)) =
      (W M a b).addY (toQuot M x1) (toQuot M x2) (toQuot M y1) (toQuot M lam) := by
  simp only [toQuot_add, toQuot_mul hM]
  rw [hx3Q]
  simp only [Affine.addY, Affine.negAddY, Affine.negY, Affine.addX, W]
  linear_combination (toQuot M lam *
      (toQuot M lam ^ 2 + toQuot M lam - toQuot M a - toQuot M x1 - toQuot M x2) +
    (toQuot M lam ^ 2 + toQuot M lam - toQuot M a - toQuot M x1 - toQuot M x2) +
    toQuot M y1) * quot_two_eq_zero M

/-- The code's chord slope `(y₁+y₂)·inv(x₁+x₂)` is the Weierstrass slope. -/
theorem chord_slopeQ {M a b x1 x2 y1 y2 g : ℕ} [Fact (Irreducible (toPoly M))]
    (hx : toQuot M x1 ≠ toQuot M x2)
    (hQg : toQuot M (BinaryField.add x1 x2) * toQuot M g = 1) :
    (W M a b).slope (toQuot M x1) (toQuot M x2) (toQuot M y1) (toQuot M y2) =
      toQuot M (BinaryField.mul M (BinaryField.add y1 y2) g) := by
  have hM : M ≠ 0 := ne_zero_of_irreducible (Fact.out : Irreducible (toPoly M))
  rw [toQuot_add] at hQg
  rw [Affine.slope_of_X_ne hx, toQuot_mul hM, toQuot_add,
    div_eq_iff (sub_ne_zero_of_ne hx)]
  linear_combination (-(toQuot M y1 + toQuot M y2)) * hQg +
    (toQuot M x2 * (toQuot M y1 + toQuot M y2) * toQuot M g - toQuot M y2) *
      quot_two_eq_zero M

/-- The code's tangent slope `x₁ + y₁·inv(x₁)` is the Weierstrass slope. -/
theorem tangent_slopeQ {M a b x1 y1 g : ℕ} [Fact (Irreducible (toPoly M))]
    (hQg : toQuot M x1 * toQuot M g = 1)
    (hy1ne : toQuot M y1 ≠ (W M a b).negY (toQuot M x1) (toQuot M y1)) :
    (W M a b).slope (toQuot M x1) (toQuot M x1) (toQuot M y1) (toQuot M y1) =
      toQuot M (BinaryField.add x1 (BinaryField.mul M y1 g)) := by
  have hM : M ≠ 0 := ne_zero_of_irreducible (Fact.out : Irreducible (toPoly M))
  have hdenne : toQuot M y1 -
      (W M a b).negY (toQuot M x1) (toQuot M y1) ≠ 0 :=
    sub_ne_zero_of_ne hy1ne
  rw [Affine.slope_of_Y_ne rfl hy1ne, toQuot_add, toQuot_mul hM,
    div_eq_iff hdenne, negY_eq]
  simp only [W]
  linear_combination (toQuot M x1 * toQuot M x1 + toQuot M a * toQuot M x1 -
      toQuot M y1 - toQuot M x1 * toQuot M y1 -
      toQuot M y1 * toQuot M y1 * toQuot M g +
      toQuot M x1 * toQuot M y1 + toQuot M x1 * toQuot M y1 * toQuot M g +
      toQuot M x1 ^ 2 + toQuot M y1 ^ 2 * toQuot M g) * quot_two_eq_zero M -
    toQuot M y1 * hQg

/-- `double` on a canonical on-curve point succeeds and lands on the curve
with canonical coordinates (irreducible modulus). -/
theorem double_ok {M a b : ℕ} (hirr : Irreducible (toPoly M)) {P : Option (ℕ × ℕ)}
    (hPc : canonical M P) (hPo : onCurve M a b P) :
    ∃ R, double M a P = .ok R ∧ canonical M R ∧ onCurve M a b R := by
  haveI : Fact (Irreducible (toPoly M)) := ⟨hirr⟩
  have hM : M ≠ 0 := ne_zero_of_irreducible hirr
  have hdeg : BinaryField.degree M = Nat.size M - 1 := by
    rw [BinaryField.degree, bitLen_eq_size]
  match P with
  | none => exact ⟨none, rfl, trivial, trivial⟩
  | some (x1, y1) =>
    obtain ⟨hx1c, hy1c⟩ := hPc
    rw [hdeg] at hx1c hy1c
    by_cases hx0 : x1 = 0
    · refine ⟨none, ?_, trivial, trivial⟩
      simp only [double]
      rw [if_pos hx0]
    · obtain ⟨g, hg⟩ := inv_ok_of_irreducible hirr hx0 hx1c
      have hdiv : BinaryField.div M y1 x1 = .ok (BinaryField.mul M y1 g) := by
        rw [BinaryField.div, hg]
        rfl
      have hQg : toQuot M x1 * toQuot M g = 1 := toQuot_inv hM hg
      have hx1Q : toQuot M x1 ≠ 0 := toQuot_ne_zero hM hx0 hx1c
      have hy1ne : toQuot M y1 ≠ (W M a b).negY (toQuot M x1) (toQuot M y1) := by
        rw [negY_eq]
        intro h
        exact hx1Q (by linear_combination h.symm)
      have h1W : (W M a b).Equation (toQuot M x1) (toQuot M y1) :=
        (onCurve_iff_equation hM a b x1 y1).mp hPo
      have hslope := tangent_slopeQ (a := a) (b := b) hQg hy1ne
      have heq : double M a (some (x1, y1)) = .ok (some
          (BinaryField.reduce M (BinaryField.add (BinaryField.add
              (BinaryField.square M (BinaryField.add x1 (BinaryField.mul M y1 g)))
              (BinaryField.add x1 (BinaryField.mul M y1 g))) a),
           BinaryField.reduce M (BinaryField.add
              (BinaryField.mul M (BinaryField.add x1 (BinaryField.add (BinaryField.add
                  (BinaryField.square M (BinaryField.add x1 (BinaryField.mul M y1 g)))
                  (BinaryField.add x1 (BinaryField.mul M y1 g))) a))
                (BinaryField.add x1 (BinaryField.mul M y1 g)))
              (BinaryField.add (BinaryField.add (BinaryField.add
                  (BinaryField.square M (BinaryField.add x1 (BinaryField.mul M y1 g)))
                  (BinaryField.add x1 (BinaryField.mul M y1 g))) a) y1)))) := by
        simp only [double]
        rw [if_neg hx0, hdiv]
        rfl
      refine ⟨_, heq, ?_, ?_⟩
      · rw [canonical, hdeg]
        exact ⟨reduce_lt hM _, reduce_lt hM _⟩
      · exact onCurve_of_formulas h1W h1W (fun _ => hy1ne)
          (by rw [hslope]; exact tangent_x3Q hM)
          (by rw [hslope]; exact shared_y3Q hM (tangent_x3Q hM))

/-- `add` on canonical on-curve points succeeds and lands on the curve
with canonical coordinates (irreducible modulus). -/
theorem add_ok {M a b : ℕ} (hirr : Irreducible (toPoly M)) {P Q : Option (ℕ × ℕ)}
    (hPc : canonical M P) (hQc : canonical M Q)
    (hPo : onCurve M a b P) (hQo : onCurve M a b Q) :
    ∃ R, add M a P Q = .ok R ∧ canonical M R ∧ onCurve M a b R := by
  haveI : Fact (Irreducible (toPoly M)) := ⟨hirr⟩
  have hM : M ≠ 0 := ne_zero_of_irreducible hirr
  have hdeg : BinaryField.degree M = Nat.size M - 1 := by
    rw [BinaryField.degree, bitLen_eq_size]
  match P, Q with
  | none, q => exact ⟨q, by cases q <;> rfl, hQc, hQo⟩
  | some (x1, y1), none => exact ⟨some (x1, y1), rfl, hPc, hPo⟩
  | some (x1, y1), some (x2, y2) =>
    have hx1s : x1 < 2 ^ (Nat.size M - 1) := by rw [← hdeg]; exact hPc.1
    have hy1s : y1 < 2 ^ (Nat.size M - 1) := by rw [← hdeg]; exact hPc.2
    have hx2s : x2 < 2 ^ (Nat.size M - 1) := by rw [← hdeg]; exact hQc.1
    have hy2s : y2 < 2 ^ (Nat.size M - 1) := by rw [← hdeg]; exact hQc.2
    by_cases hx : x1 = x2
    · subst hx
      by_cases hinf : BinaryField.add y1 y2 = x1
      · refine ⟨none, ?_, trivial, trivial⟩
        simp only [add]
        rw [if_pos trivial, if_pos hinf]
      · by_cases hyy : y1 = y2
        · subst hyy
          obtain ⟨R, hR, hRc, hRo⟩ := double_ok hirr hPc hPo
          refine ⟨R, ?_, hRc, hRo⟩
          simp only [add]
          rw [if_pos trivial, if_neg hinf, if_pos trivial]
          exact hR
        · rcases same_x_cases hirr hPo hQo hy1s hy2s hx1s with h | h
          · exact absurd h hyy
          · exact absurd h hinf
    · have hxor : BinaryField.add x1 x2 ≠ 0 := by
        rw [BinaryField.add]
        intro h
        exact hx (Nat.xor_eq_zero.mp h)
      have hxors : BinaryField.add x1 x2 < 2 ^ (Nat.size M - 1) :=
        Nat.xor_lt_two_pow hx1s hx2s
      obtain ⟨g, hg⟩ := inv_ok_of_irreducible hirr hxor hxors
      have hdiv : BinaryField.div M (BinaryField.add y1 y2) (BinaryField.add x1 x2) =
          .ok (BinaryField.mul M (BinaryField.add y1 y2) g) := by
        rw [BinaryField.div, hg]
        rfl
      have hQg : toQuot M (BinaryField.add x1 x2) * toQuot M g = 1 := toQuot_inv hM hg
      have hxQ : toQuot M x1 ≠ toQuot M x2 := fun h => hx (toQuot_inj hM hx1s hx2s h)
      have h1W : (W M a b).Equation (toQuot M x1) (toQuot M y1) :=
        (onCurve_iff_equation hM a b x1 y1).mp hPo
      have h2W : (W M a b).Equation (toQuot M x2) (toQuot M y2) :=
        (onCurve_iff_equation hM a b x2 y2).mp hQo
      have hslope := @chord_slopeQ M a b x1 x2 y1 y2 g this hxQ hQg
      have heq : add M a (some (x1, y1)) (some (x2, y2)) = .ok (some
          (BinaryField.reduce M (BinaryField.add (BinaryField.add (BinaryField.add
              (BinaryField.square M
                (BinaryField.mul M (BinaryField.add y1 y2) g))
              (BinaryField.mul M (BinaryField.add y1 y2) g)) x1)
            (BinaryField.add x2 a)),
           BinaryField.reduce M (BinaryField.add
              (BinaryField.mul M (BinaryField.add x1
                  (BinaryField.add (BinaryField.add (BinaryField.add
                      (BinaryField.square M
                        (BinaryField.mul M (BinaryField.add y1 y2) g))
                      (BinaryField.mul M (BinaryField.add y1 y2) g)) x1)
                    (BinaryField.add x2 a)))
                (BinaryField.mul M (BinaryField.add y1 y2) g))
              (BinaryField.add
                (BinaryField.add (BinaryField.add (BinaryField.add
                    (BinaryField.square M
                      (BinaryField.mul M (BinaryField.add y1 y2) g))
                    (BinaryField.mul M (BinaryField.add y1 y2) g)) x1)
                  (BinaryField.add x2 a)) y1)))) := by
        simp only [add]
        rw [if_neg hx, hdiv]
        rfl
      refine ⟨_, heq, ?_, ?_⟩
      · rw [canonical, hdeg]
        exact ⟨reduce_lt hM _, reduce_lt hM _⟩
      · exact onCurve_of_formulas h1W h2W (fun h => absurd h hxQ)
          (by rw [hslope]; exact chord_x3Q hM)
          (by rw [hslope]; exact shared_y3Q hM (chord_x3Q hM))

/-- The double-and-add loop preserves success on canonical on-curve state. -/
theorem multiplyAux_ok {M a b : ℕ} (hirr : Irreducible (toPoly M)) :
    ∀ (fuel : ℕ) {result addend : Option (ℕ × ℕ)} (k : ℕ),
      canonical M result → onCurve M a b result →
      canonical M addend → onCurve M a b addend →
      ∃ R, multiplyAux M a fuel result addend k = .ok R ∧
        canonical M R ∧ onCurve M a b R := by
  intro fuel
  induction fuel with
  | zero =>
    intro result addend k hrc hro _ _
    exact ⟨result, rfl, hrc, hro⟩
  | succ fuel ih =>
    intro result addend k hrc hro hac hao
    rw [multiplyAux]
    by_cases hk : k = 0
    · rw [if_pos hk]
      exact ⟨result, rfl, hrc, hro⟩
    · rw [if_neg hk]
      obtain ⟨A, hA, hAc, hAo⟩ := double_ok hirr hac hao
      by_cases hbit : k &&& 1 = 1
      · rw [if_pos hbit]
        obtain ⟨R1, hR1, hR1c, hR1o⟩ := add_ok hirr hrc hac hro hao
        rw [hR1, hA]
        exact ih (k >>> 1) hR1c hR1o hAc hAo
      · rw [if_neg hbit]
        rw [hA]
        exact ih (k >>> 1) hrc hro hAc hAo

/-- `multiply` with a nonnegative scalar on a canonical on-curve point
succeeds (irreducible modulus). -/
theorem multiply_ok {M a b : ℕ} (hirr : Irreducible (toPoly M)) {P : Option (ℕ × ℕ)}
    (hPc : canonical M P) (hPo : onCurve M a b P) {n : ℤ} (hn : 0 ≤ n) :
    ∃ R, multiply M a P n = .ok R := by
  rw [multiply, if_neg (not_lt.mpr hn)]
  obtain ⟨R, hR, _, _⟩ := multiplyAux_ok hirr (bitLen n.toNat) n.toNat
    (show canonical M none from trivial) (show onCurve M a b none from trivial) hPc hPo
  exact ⟨R, hR⟩

end BinaryCurve

namespace PrimeCurve

/-- `double` never fails on the prime curve when `p` is an odd prime: the
doubling denominator `(2·y₁) % p` is nonzero whenever `y₁ % p ≠ 0`. -/
theorem double_ok_p {p : ℕ} (hp : p.Prime) (hp2 : p ≠ 2) (a : ℤ) (P : Option (ℤ × ℤ)) :
    ∃ R, double (p : ℤ) a P = .ok R := by
  match P with
  | none => exact ⟨none, rfl⟩
  | some (x1, y1) =>
    by_cases hy : y1 % (p : ℤ) = 0
    · refine ⟨none, ?_⟩
      rw [double, if_pos hy]
    · have hpi : Prime ((p : ℕ) : ℤ) := Nat.prime_iff_prime_int.mp hp
      have hnd2 : ¬ ((p : ℕ) : ℤ) ∣ 2 := by
        intro h
        have h' : p ∣ 2 := by exact_mod_cast h
        exact hp2 ((Nat.prime_dvd_prime_iff_eq hp Nat.prime_two).mp h')
      have hndy : ¬ ((p : ℕ) : ℤ) ∣ y1 := fun h => hy (Int.emod_eq_zero_of_dvd h)
      have hden : ¬ PrimeField.mul (p : ℤ) 2 y1 % (p : ℤ) = 0 := by
        rw [PrimeField.mul, Int.emod_emod_of_dvd _ dvd_rfl]
        intro h
        rcases hpi.dvd_mul.mp (Int.dvd_of_emod_eq_zero h) with h | h
        · exact hnd2 h
        · exact hndy h
      have hinv : PrimeField.inv (p : ℤ) (PrimeField.mul (p : ℤ) 2 y1) =
          .ok (PrimeField.mul (p : ℤ) 2 y1 ^ ((p : ℤ) - 2).toNat % (p : ℤ)) := by
        rw [PrimeField.inv, if_neg hden]
      cases hres : double (p : ℤ) a (some (x1, y1)) with
      | ok R => exact ⟨R, rfl⟩
      | error e =>
        rw [double, if_neg hy, PrimeField.div, hinv] at hres
        exact Except.noConfusion hres

/-- `add` never fails on the prime curve with an odd prime `p` and
canonical points: the chord denominator `(x₂-x₁) % p` is nonzero. -/
theorem add_ok_p {p : ℕ} (hp : p.Prime) (hp2 : p ≠ 2) (a : ℤ) {P Q : Option (ℤ × ℤ)}
    (hPc : canonical (p : ℤ) P) (hQc : canonical (p : ℤ) Q) :
    ∃ R, add (p : ℤ) a P Q = .ok R := by
  match P, Q with
  | none, q => exact ⟨q, by cases q <;> rfl⟩
  | some (x1, y1), none => exact ⟨some (x1, y1), rfl⟩
  | some (x1, y1), some (x2, y2) =>
    obtain ⟨hx10, hx1p, hy10, hy1p⟩ := hPc
    obtain ⟨hx20, hx2p, hy20, hy2p⟩ := hQc
    by_cases hx : x1 = x2
    · by_cases hs : (y1 + y2) % (p : ℤ) = 0
      · refine ⟨none, ?_⟩
        rw [add, if_pos hx, if_pos hs]
      · obtain ⟨R, hR⟩ := double_ok_p hp hp2 a (some (x1, y1))
        refine ⟨R, ?_⟩
        rw [add, if_pos hx, if_neg hs]
        exact hR
    · have hp0 : (0 : ℤ) < (p : ℤ) := by exact_mod_cast hp.pos
      have hden : ¬ PrimeField.sub (p : ℤ) x2 x1 % (p : ℤ) = 0 := by
        rw [PrimeField.sub, Int.emod_emod_of_dvd _ dvd_rfl]
        intro h
        obtain ⟨k, hk⟩ := Int.dvd_of_emod_eq_zero h
        have hk1 : k < 1 := by
          by_contra hk1
          nlinarith
        have hk2 : -1 < k := by
          by_contra hk2
          nlinarith
        have hk0 : k = 0 := by omega
        rw [hk0, mul_zero, sub_eq_zero] at hk
        exact hx hk.symm
      have hinv : PrimeField.inv (p : ℤ) (PrimeField.sub (p : ℤ) x2 x1) =
          .ok (PrimeField.sub (p : ℤ) x2 x1 ^ ((p : ℤ) - 2).toNat % (p : ℤ)) := by
        rw [PrimeField.inv, if_neg hden]
      cases hres : add (p : ℤ) a (some (x1, y1)) (some (x2, y2)) with
      | ok R => exact ⟨R, rfl⟩
      | error e =>
        rw [add, if_neg hx, PrimeField.div, hinv] at hres
        exact Except.noConfusion hres

/-- The double-and-add loop preserves success with an odd prime `p` and
canonical state. -/
theorem multiplyAux_ok_p {p : ℕ} (hp : p.Prime) (hp2 : p ≠ 2) (a : ℤ) :
    ∀ (fuel : ℕ) {result addend : Option (ℤ × ℤ)} (k : ℕ),
      canonical (p : ℤ) result → canonical (p : ℤ) addend →
      ∃ R, multiplyAux (p : ℤ) a fuel result addend k = .ok R ∧
        canonical (p : ℤ) R := by
  have hp0 : (0 : ℤ) < (p : ℤ) := by exact_mod_cast hp.pos
  intro fuel
  induction fuel with
  | zero =>
    intro result addend k hrc _
    exact ⟨result, rfl, hrc⟩
  | succ fuel ih =>
    intro result addend k hrc hac
    rw [multiplyAux]
    by_cases hk : k = 0
    · rw [if_pos hk]
      exact ⟨result, rfl, hrc⟩
    · rw [if_neg hk]
      obtain ⟨A, hA⟩ := double_ok_p hp hp2 a addend
      have hAc := double_canonical_p hp0 hA
      by_cases hbit : k &&& 1 = 1
      · rw [if_pos hbit]
        obtain ⟨R1, hR1⟩ := add_ok_p hp hp2 a hrc hac
        have hR1c := add_canonical_p hp0 hrc hac hR1
        rw [hR1, hA]
        exact ih (k >>> 1) hR1c hAc
      · rw [if_neg hbit]
        rw [hA]
        exact ih (k >>> 1) hrc hAc

/-- `multiply` with a nonnegative scalar succeeds on the prime curve for
every odd prime `p` and canonical point. -/
theorem multiply_ok_p {p : ℕ} (hp : p.Prime) (hp2 : p ≠ 2) (a : ℤ) {P : Option (ℤ × ℤ)}
    (hPc : canonical (p : ℤ) P) {n : ℤ} (hn : 0 ≤ n) :
    ∃ R, multiply (p : ℤ) a P n = .ok R := by
  rw [multiply, if_neg (not_lt.mpr hn)]
  obtain ⟨R, hR, _⟩ := multiplyAux_ok_p hp hp2 a (bitLen n.toNat) n.toNat
    (show canonical (p : ℤ) none from trivial) hPc
  exact ⟨R, hR⟩

end PrimeCurve

/-- **C4 counterexample.** The claim "for every n ≥ 0 `multiply` returns
normally" fails at the prime `p = 2`: the point `(0, 1)` is canonical and
lies on `y² = x³ + 1` over GF(2), the scalar `2` is nonnegative, yet
`multiply` raises `ZeroDivisionError` (the doubling denominator
`(2·y₁) % 2` is `0`). -/
theorem multiply_p2_divisionByZero :
    Nat.Prime 2 ∧ (0 : ℤ) ≤ 2 ∧
    PrimeCurve.canonical ((2 : ℕ) : ℤ) (some (0, 1)) ∧
    PrimeCurve.onCurve ((2 : ℕ) : ℤ) 0 1 (some (0, 1)) ∧
    PrimeCurve.multiply ((2 : ℕ) : ℤ) 0 (some (0, 1)) 2 =
      .error .divisionByZero :=
  ⟨Nat.prime_two, by norm_num, by decide, by decide, rfl⟩

/-- **C4 (amended).** For both curve variants, `multiply(P, n)` fails with
`InvalidScalar` if and only if `n < 0`, and for every `n ≥ 0` it returns
normally, *provided* the field is nondegenerate for the operation: an odd
prime `p` with `P` canonical on the prime curve, an irreducible reduction
polynomial with `P` canonical and on the curve on the binary curve.  (At
`p = 2` the claim fails, see the counterexample.) -/
theorem multiply_invalidScalar_iff_neg :
    (∀ (p : ℕ) (a : ℤ) (P : Option (ℤ × ℤ)) (n : ℤ), p.Prime → p ≠ 2 →
      PrimeCurve.canonical (p : ℤ) P →
      ((PrimeCurve.multiply (p : ℤ) a P n = .error .invalidScalar ↔ n < 0) ∧
       (0 ≤ n → ∃ R, PrimeCurve.multiply (p : ℤ) a P n = .ok R))) ∧
    (∀ (M a b : ℕ) (P : Option (ℕ × ℕ)) (n : ℤ), Irreducible (toPoly M) →
      BinaryCurve.canonical M P → BinaryCurve.onCurve M a b P →
      ((BinaryCurve.multiply M a P n = .error .invalidScalar ↔ n < 0) ∧
       (0 ≤ n → ∃ R, BinaryCurve.multiply M a P n = .ok R))) := by
  constructor
  · intro p a P n hp hp2 hPc
    refine ⟨⟨?_, ?_⟩, ?_⟩
    · intro h
      by_contra hn
      obtain ⟨R, hR⟩ := PrimeCurve.multiply_ok_p hp hp2 a hPc (not_lt.mp hn)
      rw [hR] at h
      exact Except.noConfusion h
    · intro hn
      rw [PrimeCurve.multiply, if_pos hn]
    · intro hn
      exact PrimeCurve.multiply_ok_p hp hp2 a hPc hn
  · intro M a b P n hirr hPc hPo
    refine ⟨⟨?_, ?_⟩, ?_⟩
    · intro h
      by_contra hn
      obtain ⟨R, hR⟩ := BinaryCurve.multiply_ok hirr hPc hPo (not_lt.mp hn)
      rw [hR] at h
      exact Except.noConfusion h
    · intro hn
      rw [BinaryCurve.multiply, if_pos hn]
    · intro hn
      exact BinaryCurve.multiply_ok hirr hPc hPo hn

/-- Concrete instantiation of the amended C4 theorem: `p = 23`, `a = 1`,
`P = (3, 10)`, and GF(2) with modulus `X`, `a = 0`, `b = 1`, `P = (1, 1)`,
both with scalar `n = 2`. -/
theorem multiply_invalidScalar_iff_neg_witness :
    Nat.Prime 23 ∧ (23 : ℕ) ≠ 2 ∧
    PrimeCurve.canonical ((23 : ℕ) : ℤ) (some (3, 10)) ∧
    Irreducible (toPoly 2) ∧ BinaryCurve.canonical 2 (some (1, 1)) ∧
    BinaryCurve.onCurve 2 0 1 (some (1, 1)) ∧
    ((PrimeCurve.multiply ((23 : ℕ) : ℤ) 1 (some (3, 10)) 2 =
        .error .invalidScalar ↔ (2 : ℤ) < 0) ∧
      (0 ≤ (2 : ℤ) → ∃ R, PrimeCurve.multiply ((23 : ℕ) : ℤ) 1 (some (3, 10)) 2 = .ok R)) ∧
    ((BinaryCurve.multiply 2 0 (some (1, 1)) 2 = .error .invalidScalar ↔ (2 : ℤ) < 0) ∧
      (0 ≤ (2 : ℤ) → ∃ R, BinaryCurve.multiply 2 0 (some (1, 1)) 2 = .ok R)) :=
  ⟨by decide, by decide, by decide, toPoly_two ▸ Polynomial.irreducible_X, by decide, by decide,
    multiply_invalidScalar_iff_neg.1 23 1 (some (3, 10)) 2 (by decide) (by decide) (by decide),
    multiply_invalidScalar_iff_neg.2 2 0 1 (some (1, 1)) 2
      (toPoly_two ▸ Polynomial.irreducible_X) (by decide) (by decide)⟩

/-!
## String-processing layer (`main.py` 8-38, 253-305)

Python strings are embedded as `List Char`; the model covers the ASCII
fragment the input format uses (Python's `str.strip`, `str.lower` and
`int` whitespace/lowercasing restricted to ASCII).  Python's `ValueError`
sites map to `Err` as documented at `Err`; the tuple-unpack failure of
`extract_points` is `Err.unpack`.
-/

/-- ASCII whitespace: what Python's `str.strip()` and `int` remove at the
ends of ASCII text. -/
def isPyWs (c : Char) : Bool :=
  c == ' ' || c == '\t' || c == '\n' || c == '\r' || c == '\x0b' || c == '\x0c'

/-- `str.strip()` on ASCII text. -/
def pyStrip (s : List Char) : List Char :=
  ((s.dropWhile isPyWs).reverse.dropWhile isPyWs).reverse

/-- `str.rstrip(",")`: drop every trailing comma. -/
def rstripCommas (s : List Char) : List Char :=
  (s.reverse.dropWhile (fun c => c == ',')).reverse

/-- ASCII `str.lower()`. -/
def asciiLower (c : Char) : Char :=
  if 'A' ≤ c ∧ c ≤ 'Z' then Char.ofNat (c.toNat + 32) else c

/-- The digit value a character denotes (`0`-`9`, `a`-`f`, `A`-`F`),
before any base check. -/
def digitRaw (c : Char) : Option ℕ :=
  if '0' ≤ c ∧ c ≤ '9' then some (c.toNat - 48)
  else if 'a' ≤ c ∧ c ≤ 'f' then some (c.toNat - 87)
  else if 'A' ≤ c ∧ c ≤ 'F' then some (c.toNat - 55)
  else none

/-- The value of `c` as a digit in base `b`, if it is one. -/
def digitVal (b : ℕ) (c : Char) : Option ℕ :=
  match digitRaw c with
  | some d => if d < b then some d else none
  | none => none

/-- CPython's digit scanner positioned right after an accepted digit
(accumulator `v`): accepts `('_'? digit)*`, an underscore only singly and
only in front of a further digit. -/
def digitsRest (b v : ℕ) : List Char → Option ℕ
  | [] => some v
  | c :: cs =>
    if c = '_' then
      match cs with
      | [] => none
      | c2 :: cs2 =>
        match digitVal b c2 with
        | some d => digitsRest b (v * b + d) cs2
        | none => none
    else
      match digitVal b c with
      | some d => digitsRest b (v * b + d) cs
      | none => none

/-- A CPython digit run: at least one digit, then `digitsRest`. -/
def digitsRun (b : ℕ) : List Char → Option ℕ
  | [] => none
  | c :: cs =>
    match digitVal b c with
    | some d => digitsRest b d cs
    | none => none

/-- One underscore is allowed between a radix marker and the first digit
(`0x_ff`). -/
def dropPrefixUnderscore : List Char → List Char
  | '_' :: r => r
  | r => r

/-- The magnitude part of CPython's `int(s, 0)` (sign already removed):
radix markers `0x`/`0X`, `0o`/`0O`, `0b`/`0B`; a numeral with a bare
leading zero is only legal when it consists of zeros (base 1 accepts
exactly the digit `0`); plain decimal otherwise. -/
def pyIntAbs : List Char → Option ℕ
  | [] => none
  | [c] => if c = '0' then some 0 else digitsRun 10 [c]
  | c0 :: c :: rest =>
    if c0 = '0' then
      if c == 'x' || c == 'X' then digitsRun 16 (dropPrefixUnderscore rest)
      else if c == 'o' || c == 'O' then digitsRun 8 (dropPrefixUnderscore rest)
      else if c == 'b' || c == 'B' then digitsRun 2 (dropPrefixUnderscore rest)
      else digitsRest 1 0 (c :: rest)
    else digitsRun 10 (c0 :: c :: rest)

/-- CPython's `int(s, 0)`: strip whitespace, one optional sign, then the
magnitude. -/
def pyInt0 (s : List Char) : Option ℤ :=
  match pyStrip s with
  | [] => none
  | c :: t =>
    if c = '+' then (pyIntAbs t).map fun n => (n : ℤ)
    else if c = '-' then (pyIntAbs t).map fun n => -(n : ℤ)
    else (pyIntAbs (c :: t)).map fun n => (n : ℤ)

/-- `parse_int` (`main.py` 8-10): `int(raw.strip().rstrip(","), 0)`; the
`ValueError` of `int` is the taxonomy's `FormatError`. -/
def parse_int (raw : List Char) : Except Err ℤ :=
  match pyInt0 (rstripCommas (pyStrip raw)) with
  | some v => .ok v
  | none => .error .formatError

/-- The characters `re.sub(r"[^a-z0-9]", "", ·)` keeps. -/
def isLowerAlnum (c : Char) : Bool :=
  decide (('a' ≤ c ∧ c ≤ 'z') ∨ ('0' ≤ c ∧ c ≤ '9'))

/-- `normalize_curve_type` (`main.py` 12-13). -/
def normalize_curve_type (s : List Char) : List Char :=
  ((pyStrip s).map asciiLower).filter isLowerAlnum

/-- Python's substring test `pat in s`. -/
def containsSub (pat : List Char) : List Char → Bool
  | [] => pat.isEmpty
  | c :: rest => List.isPrefixOf pat (c :: rest) || containsSub pat rest

/-- The branch `parse_curve` selects from the normalized header. -/
inductive CurveClass
  | prime
  | binary
  | unknown
deriving DecidableEq, Repr

/-- The branch selection of `parse_curve` (`main.py` 253-276). -/
def parse_curve_class (header : List Char) : CurveClass :=
  if normalize_curve_type header = ("1".toList) ∨
      normalize_curve_type header = ("zp".toList) ∨
      normalize_curve_type header = ("fp".toList) ∨
      normalize_curve_type header = ("prime".toList) ∨
      normalize_curve_type header = ("zpp".toList) ∨
      normalize_curve_type header = ("zpc".toList) ∨
      containsSub ("zp".toList) (normalize_curve_type header) then
    CurveClass.prime
  else if normalize_curve_type header = ("2".toList) ∨
      normalize_curve_type header = ("3".toList) ∨
      normalize_curve_type header = ("gf2s".toList) ∨
      normalize_curve_type header = ("gf2ns".toList) ∨
      normalize_curve_type header = ("gf2".toList) ∨
      normalize_curve_type header = ("gf2n".toList) ∨
      containsSub ("gf2".toList) (normalize_curve_type header) ∨
      (List.isPrefixOf ("gf".toList) (normalize_curve_type header) ∧
        containsSub ("2".toList) (normalize_curve_type header)) then
    CurveClass.binary
  else CurveClass.unknown

/-- The classification exactly as the specification words it (C6): the
prime alias set is only `{"1","zp","fp","prime"}`, plus the same
"contains zp" rule; the binary rule is identical. -/
def spec_curve_class (header : List Char) : CurveClass :=
  if normalize_curve_type header = ("1".toList) ∨
      normalize_curve_type header = ("zp".toList) ∨
      normalize_curve_type header = ("fp".toList) ∨
      normalize_curve_type header = ("prime".toList) ∨
      containsSub ("zp".toList) (normalize_curve_type header) then
    CurveClass.prime
  else if normalize_curve_type header = ("2".toList) ∨
      normalize_curve_type header = ("3".toList) ∨
      normalize_curve_type header = ("gf2s".toList) ∨
      normalize_curve_type header = ("gf2ns".toList) ∨
      normalize_curve_type header = ("gf2".toList) ∨
      normalize_curve_type header = ("gf2n".toList) ∨
      containsSub ("gf2".toList) (normalize_curve_type header) ∨
      (List.isPrefixOf ("gf".toList) (normalize_curve_type header) ∧
        containsSub ("2".toList) (normalize_curve_type header)) then
    CurveClass.binary
  else CurveClass.unknown

/-- The captures of `re.findall(r"\(([^)]+)\)", line)` (`main.py` 28):
scan for `(`, take the maximal run free of `)`, require the closing `)`
and a nonempty capture (fuel: the input length). -/
def findGroupsAux : ℕ → List Char → List (List Char)
  | 0, _ => []
  | _ + 1, [] => []
  | fuel + 1, c :: rest =>
    if c = '(' then
      match rest.dropWhile (fun d => !(d == ')')) with
      | ')' :: tail =>
        if (rest.takeWhile (fun d => !(d == ')'))).isEmpty then findGroupsAux fuel tail
        else rest.takeWhile (fun d => !(d == ')')) :: findGroupsAux fuel tail
      | _ => []
    else findGroupsAux fuel rest

def findGroups (line : List Char) : List (List Char) :=
  findGroupsAux line.length line

/-- One parenthesised point: `x_raw, y_raw = raw_point.split(",")`, then
`parse_int` of each part (`main.py` 29-30); a group that does not split
into exactly two parts raises the tuple-unpack `ValueError`
(`Err.unpack`), before any `parse_int` of its parts. -/
def parsePoint (grp : List Char) : Except Err (ℤ × ℤ) :=
  match grp.splitOn ',' with
  | [xr, yr] => do
    let x ← parse_int xr
    let y ← parse_int yr
    return (x, y)
  | _ => .error .unpack

/-- `extract_points` (`main.py` 26-31): each capture in order. -/
def extract_points (line : List Char) : Except Err (List (ℤ × ℤ)) :=
  (findGroups line).mapM parsePoint

/-- `re.sub(r"\([^)]*\)", " ", line)` (`main.py` 34): every parenthesised
group (empty allowed) becomes one space; an unclosed `(` stays. -/
def removeGroupsAux : ℕ → List Char → List Char
  | 0, s => s
  | _ + 1, [] => []
  | fuel + 1, c :: rest =>
    if c = '(' then
      match rest.dropWhile (fun d => !(d == ')')) with
      | ')' :: tail => ' ' :: removeGroupsAux fuel tail
      | _ => c :: removeGroupsAux fuel rest
    else c :: removeGroupsAux fuel rest

def removeGroups (line : List Char) : List Char :=
  removeGroupsAux line.length line

def isHexDigit (c : Char) : Bool :=
  decide (('0' ≤ c ∧ c ≤ '9') ∨ ('a' ≤ c ∧ c ≤ 'f') ∨ ('A' ≤ c ∧ c ≤ 'F'))

def isBinDigit (c : Char) : Bool := c == '0' || c == '1'

def isDecDigit (c : Char) : Bool := decide ('0' ≤ c ∧ c ≤ '9')

/-- The scalar pattern `-?0x[0-9a-fA-F]+|-?0b[01]+|-?\d+` tried at one
position (`main.py` 35): alternatives in order, greedy digit runs, the
radix markers lowercase only. -/
def matchScalarAt (s : List Char) : Option (List Char) :=
  let sign : List Char := match s with
    | '-' :: _ => ['-']
    | _ => []
  let body : List Char := match s with
    | '-' :: r => r
    | r => r
  let hex : Option (List Char) := match body with
    | '0' :: 'x' :: t =>
      if (t.takeWhile isHexDigit).isEmpty then none
      else some (sign ++ '0' :: 'x' :: t.takeWhile isHexDigit)
    | _ => none
  let bin : Option (List Char) := match body with
    | '0' :: 'b' :: t =>
      if (t.takeWhile isBinDigit).isEmpty then none
      else some (sign ++ '0' :: 'b' :: t.takeWhile isBinDigit)
    | _ => none
  let dec : Option (List Char) :=
    if (body.takeWhile isDecDigit).isEmpty then none
    else some (sign ++ body.takeWhile isDecDigit)
  hex <|> bin <|> dec

/-- `re.search` of the scalar pattern: the leftmost position that
matches. -/
def searchScalar : List Char → Option (List Char)
  | [] => none
  | c :: rest =>
    match matchScalarAt (c :: rest) with
    | some tok => some tok
    | none => searchScalar rest

/-- `extract_scalar` (`main.py` 33-38): erase the parenthesised groups,
search the scalar pattern, `parse_int` the match; no match raises
`MissingScalar`. -/
def extract_scalar (line : List Char) : Except Err ℤ :=
  match searchScalar (removeGroups line) with
  | some tok => parse_int tok
  | none => .error .missingScalar

/-- Python's `str` of an integer. -/
def intStr (n : ℤ) : List Char :=
  if n < 0 then '-' :: Nat.toDigits 10 (-n).toNat else Nat.toDigits 10 n.toNat

/-- `format_point` (`main.py` 279-283): Infinity is the literal `0`. -/
def format_point : Option (ℤ × ℤ) → List Char
  | none => ['0']
  | some (x, y) => '(' :: (intStr x ++ ',' :: ' ' :: intStr y ++ [')'])

/-- `handle_task` (`main.py` 285-305), generic in the curve's `add` and
`multiply` methods; produces the output line.  The branch test is on the
stripped lowercased line, the extraction on the original line. -/
def handle_task
    (addOp : Option (ℤ × ℤ) → Option (ℤ × ℤ) → Except Err (Option (ℤ × ℤ)))
    (mulOp : Option (ℤ × ℤ) → ℤ → Except Err (Option (ℤ × ℤ)))
    (line : List Char) : Except Err (List Char) :=
  match (pyStrip line).map asciiLower with
  | 'a' :: _ => do
    let pts ← extract_points line
    match pts with
    | [p1, p2] => do
      let res ← addOp (some p1) (some p2)
      return format_point (some p1) ++ (" + ".toList) ++ format_point (some p2) ++
        (" = ".toList) ++ format_point res
    | _ => .error .wrongArity
  | 'm' :: _ => do
    let pts ← extract_points line
    match pts with
    | [p1] => do
      let scalar ← extract_scalar line
      let res ← mulOp (some p1) scalar
      return format_point (some p1) ++ (" * ".toList) ++ intStr scalar ++
        (" = ".toList) ++ format_point res
    | _ => .error .wrongArity
  | _ => .error .unknownTask

/-- **C5.** With the prime curve over `p = 23`, `a = 1`, `b = 1` (the
constructor stores `a % p`), the task line `A (3,10) (3,13)` evaluates to
exactly `(3, 10) + (3, 13) = 0`: the two points share `x = 3` and
`10 + 13 ≡ 0 (mod 23)`, so the sum is Infinity, rendered as the literal
`0`. -/
theorem prime_task_mutual_inverse_output :
    handle_task (PrimeCurve.add 23 (PrimeCurve.storedCoeff 23 1))
      (PrimeCurve.multiply 23 (PrimeCurve.storedCoeff 23 1))
      ("A (3,10) (3,13)".toList) = .ok ("(3, 10) + (3, 13) = 0".toList) := by
  rfl

/-- **C6.** For every header line, the branch selection of `parse_curve`
agrees exactly with the specification's classification of the normalized
header: the code's two extra prime aliases `zpp`, `zpc` are subsumed by
the `contains "zp"` rule, and the binary rule is identical. -/
theorem curve_type_classification (s : List Char) :
    parse_curve_class s = spec_curve_class s := by
  rw [parse_curve_class, spec_curve_class]
  generalize normalize_curve_type s = t
  by_cases hzpp : t = ("zpp".toList)
  · subst hzpp
    decide
  · by_cases hzpc : t = ("zpc".toList)
    · subst hzpc
      decide
    · have h : (t = ("1".toList) ∨ t = ("zp".toList) ∨ t = ("fp".toList) ∨
          t = ("prime".toList) ∨ t = ("zpp".toList) ∨ t = ("zpc".toList) ∨
          containsSub ("zp".toList) t) ↔
          (t = ("1".toList) ∨ t = ("zp".toList) ∨ t = ("fp".toList) ∨
          t = ("prime".toList) ∨ containsSub ("zp".toList) t) := by
        constructor
        · rintro (h | h | h | h | h | h | h)
          exacts [Or.inl h, Or.inr (Or.inl h), Or.inr (Or.inr (Or.inl h)),
            Or.inr (Or.inr (Or.inr (Or.inl h))), absurd h hzpp, absurd h hzpc,
            Or.inr (Or.inr (Or.inr (Or.inr h)))]
        · rintro (h | h | h | h | h)
          exacts [Or.inl h, Or.inr (Or.inl h), Or.inr (Or.inr (Or.inl h)),
            Or.inr (Or.inr (Or.inr (Or.inl h))),
            Or.inr (Or.inr (Or.inr (Or.inr (Or.inr (Or.inr h)))))]
      exact if_congr h rfl rfl

/-- **C10 counterexample.** The addition line `A (x,1) (1,2,3)` contains
the group `1,2,3`, whose contents do not split on `,` into two parts —
yet the evaluation fails with `FormatError`, an error kind of the §7
taxonomy: the earlier group `x,1` reaches `parse_int("x")` first. -/
theorem handle_task_mixed_groups_formatError :
    (∃ g ∈ findGroups ("A (x,1) (1,2,3)".toList), (g.splitOn ',').length ≠ 2) ∧
    handle_task (PrimeCurve.add 23 1) (PrimeCurve.multiply 23 1)
      ("A (x,1) (1,2,3)".toList) = .error .formatError := by
  constructor
  · exact ⟨("1,2,3".toList), by decide, by decide⟩
  · rfl

/-- **C10 (amended).** A parenthesised group that does not split on `,`
into exactly two parts makes `parsePoint` fail with the tuple-unpack
error `Err.unpack` — which is neither `WrongArity` nor `FormatError` —
and `handle_task` propagates every `extract_points` failure verbatim on
any line recognized as an addition or multiplication task, whatever the
curve operations.  (When an earlier group fails `parse_int` first, the
line fails with that taxonomy error instead: see the counterexample.) -/
theorem extract_points_unpack_amended :
    (∀ g : List Char, (g.splitOn ',').length ≠ 2 → parsePoint g = .error .unpack) ∧
    Err.unpack ≠ Err.wrongArity ∧ Err.unpack ≠ Err.formatError ∧
    (∀ (addOp : Option (ℤ × ℤ) → Option (ℤ × ℤ) → Except Err (Option (ℤ × ℤ)))
      (mulOp : Option (ℤ × ℤ) → ℤ → Except Err (Option (ℤ × ℤ)))
      (line : List Char) (e : Err),
      extract_points line = .error e →
      (∃ c rest, (pyStrip line).map asciiLower = c :: rest ∧ (c = 'a' ∨ c = 'm')) →
      handle_task addOp mulOp line = .error e) := by
  refine ⟨?_, by decide, by decide, ?_⟩
  · intro g h
    rw [parsePoint]
    rcases hsp : g.splitOn ',' with _ | ⟨x, _ | ⟨y, _ | ⟨z, zs⟩⟩⟩
    · rfl
    · rfl
    · rw [hsp] at h
      exact absurd rfl h
    · rfl
  · intro addOp mulOp line e he hstart
    obtain ⟨c, rest, hop, hc⟩ := hstart
    rw [handle_task, hop, he]
    rcases hc with rfl | rfl
    · rfl
    · rfl

/-- Concrete instantiation of the amended C10 theorem: the group `1,2,3`
and the addition line `A (1,2,3)` with the `p = 23` prime curve. -/
theorem extract_points_unpack_amended_witness :
    (("1,2,3".toList.splitOn ',').length ≠ 2 ∧
      parsePoint ("1,2,3".toList) = .error .unpack) ∧
    (extract_points ("A (1,2,3)".toList) = .error .unpack ∧
      handle_task (PrimeCurve.add 23 1) (PrimeCurve.multiply 23 1)
        ("A (1,2,3)".toList) = .error .unpack) :=
  ⟨⟨by decide, extract_points_unpack_amended.1 ("1,2,3".toList) (by decide)⟩,
   ⟨rfl, extract_points_unpack_amended.2.2.2 (PrimeCurve.add 23 1)
      (PrimeCurve.multiply 23 1) ("A (1,2,3)".toList) Err.unpack rfl
      ⟨'a', (" (1,2,3)".toList), rfl, Or.inl rfl⟩⟩⟩

/-- One trailing separator character removed, as the original C7 claim
words it. -/
def stripOneComma (s : List Char) : List Char :=
  match s.reverse with
  | ',' :: r => r.reverse
  | _ => s

/-- A plain digit run in base `b` (no underscores), as the original C7
claim words it: every character a digit, at least one. -/
def plainRun (b : ℕ) (s : List Char) : Option ℕ :=
  if s.isEmpty then none
  else s.foldl (fun acc c =>
    match acc, digitVal b c with
    | some v, some d => some (v * b + d)
    | _, _ => none) (some 0)

/-- The magnitude as the original C7 claim words it: `0x`/`0X` hex,
`0b`/`0B` binary, plain decimal otherwise (leading zeros allowed, no
octal marker). -/
def claimIntAbs : List Char → Option ℕ
  | [] => none
  | [c] => plainRun 10 [c]
  | c0 :: c :: rest =>
    if c0 = '0' then
      if c == 'x' || c == 'X' then plainRun 16 rest
      else if c == 'b' || c == 'B' then plainRun 2 rest
      else plainRun 10 (c0 :: c :: rest)
    else plainRun 10 (c0 :: c :: rest)

/-- `parse_int` as the original C7 claim describes it: trim whitespace,
strip one trailing separator, optional leading `-`, radix
auto-detection, `FormatError` otherwise. -/
def claim_parse_int (raw : List Char) : Except Err ℤ :=
  match stripOneComma (pyStrip raw) with
  | '-' :: t =>
    match claimIntAbs t with
    | some v => .ok (-(v : ℤ))
    | none => .error .formatError
  | t =>
    match claimIntAbs t with
    | some v => .ok (v : ℤ)
    | none => .error .formatError

/-- **C7 counterexample.** The code disagrees with the claimed
`parse_int` behaviour on three counts: `int(s, 0)` rejects an unprefixed
numeral with leading zeros (`"010"`), accepts the octal marker
(`"0o10"` is `8`), and `rstrip(",")` removes every trailing comma
(`"7,,"` parses as `7`). -/
theorem parse_int_base0_counterexample :
    parse_int ("010".toList) = .error .formatError ∧
    claim_parse_int ("010".toList) = .ok 10 ∧
    parse_int ("0o10".toList) = .ok 8 ∧
    claim_parse_int ("0o10".toList) = .error .formatError ∧
    parse_int ("7,,".toList) = .ok 7 ∧
    claim_parse_int ("7,,".toList) = .error .formatError :=
  ⟨rfl, rfl, rfl, rfl, rfl, rfl⟩

/-!
## The amended C7 specification of `parse_int`

The amended wording of the digit grammar: a digit followed by further
digits with single separating underscores (never doubled, never at the
end); one underscore is allowed right after a radix marker; an
unprefixed numeral beginning with `0` must denote zero.
-/

/-- No two adjacent underscores. -/
def noDoubleUnd : List Char → Bool
  | [] => true
  | [_] => true
  | a :: b :: rest => !(a == '_' && b == '_') && noDoubleUnd (b :: rest)

/-- The spec's continuation of a digit run (the position right after an
accepted digit): no trailing underscore, no doubled underscore, every
character an underscore or a digit of the base. -/
def specRestOk (b : ℕ) (s : List Char) : Bool :=
  !(s.getLast? == some '_') && noDoubleUnd s &&
    s.all (fun c => c == '_' || (digitVal b c).isSome)

/-- The digits of the continuation folded into a value starting from
`v`, underscores skipped. -/
def specRestVal (b v : ℕ) (s : List Char) : ℕ :=
  (s.filter (fun c => !(c == '_'))).foldl
    (fun acc c => acc * b + (digitVal b c).getD 0) v

/-- The spec's digit run: one digit, then a `specRestOk` continuation. -/
def specDigits (b : ℕ) (s : List Char) : Option ℕ :=
  match s with
  | [] => none
  | c :: cs =>
    if (digitVal b c).isSome && specRestOk b cs then
      some (specRestVal b ((digitVal b c).getD 0) cs)
    else none

/-- The magnitude as the amended C7 claim words it: radix markers
`0x`/`0X`, `0o`/`0O`, `0b`/`0B` with one underscore allowed after them;
an unprefixed numeral beginning with `0` must denote zero. -/
def specIntAbs : List Char → Option ℕ
  | [] => none
  | [c] => if c = '0' then some 0 else specDigits 10 [c]
  | c0 :: c :: rest =>
    if c0 = '0' then
      if c == 'x' || c == 'X' then specDigits 16 (dropPrefixUnderscore rest)
      else if c == 'o' || c == 'O' then specDigits 8 (dropPrefixUnderscore rest)
      else if c == 'b' || c == 'B' then specDigits 2 (dropPrefixUnderscore rest)
      else
        match specDigits 10 (c0 :: c :: rest) with
        | some v => if v = 0 then some 0 else none
        | none => none
    else specDigits 10 (c0 :: c :: rest)

/-- The amended C7 integer literal: strip whitespace, one optional sign,
then the magnitude. -/
def specInt0 (s : List Char) : Option ℤ :=
  match pyStrip s with
  | [] => none
  | c :: t =>
    if c = '+' then (specIntAbs t).map fun n => (n : ℤ)
    else if c = '-' then (specIntAbs t).map fun n => -(n : ℤ)
    else (specIntAbs (c :: t)).map fun n => (n : ℤ)

/-- `parse_int` as amended: trim, drop every trailing comma, read a
Python integer literal. -/
def spec_parse_int (raw : List Char) : Except Err ℤ :=
  match specInt0 (rstripCommas (pyStrip raw)) with
  | some v => .ok v
  | none => .error .formatError

theorem noDoubleUnd_cons_cons (a c : Char) (l : List Char) :
    noDoubleUnd (a :: c :: l) = ((!(a == '_' && c == '_')) && noDoubleUnd (c :: l)) := rfl

theorem digitVal_ne_underscore {b : ℕ} {c : Char} {d : ℕ}
    (h : digitVal b c = some d) : c ≠ '_' := by
  intro hc
  subst hc
  rw [show digitVal b '_' = none from rfl] at h
  cases h

/-- Prepending a digit does not change the continuation test. -/
theorem specRestOk_cons_digit {b : ℕ} {c : Char} {d : ℕ}
    (hc : digitVal b c = some d) (s : List Char) :
    specRestOk b (c :: s) = specRestOk b s := by
  have hne : ¬(c == '_') = true := by
    simp [digitVal_ne_underscore hc]
  cases s with
  | nil =>
    simp [specRestOk, noDoubleUnd, hne, hc]
  | cons x xs =>
    rw [specRestOk, specRestOk, List.getLast?_cons_cons, noDoubleUnd_cons_cons]
    simp [hne, hc]

theorem specRestVal_cons_digit {b : ℕ} {c : Char} {d : ℕ}
    (hc : digitVal b c = some d) (v : ℕ) (s : List Char) :
    specRestVal b v (c :: s) = specRestVal b (v * b + d) s := by
  have hne : ¬(c == '_') = true := by
    simp [digitVal_ne_underscore hc]
  rw [specRestVal, specRestVal, List.filter_cons]
  simp [hc, digitVal_ne_underscore hc]

/-- An underscore before a digit does not change the continuation test. -/
theorem specRestOk_underscore {b : ℕ} {d : Char} {e : ℕ}
    (hd : digitVal b d = some e) (cs : List Char) :
    specRestOk b ('_' :: d :: cs) = specRestOk b (d :: cs) := by
  have hne : (d == '_') = false := by
    simp [digitVal_ne_underscore hd]
  rw [specRestOk, specRestOk, List.getLast?_cons_cons, noDoubleUnd_cons_cons]
  simp [hne]

theorem specRestVal_underscore (b v : ℕ) (d : Char) (cs : List Char) :
    specRestVal b v ('_' :: d :: cs) = specRestVal b v (d :: cs) := by
  rw [specRestVal, specRestVal, List.filter_cons]
  simp

theorem specRestOk_cons_bad {b : ℕ} {c : Char} (hne : c ≠ '_')
    (hc : digitVal b c = none) (s : List Char) :
    specRestOk b (c :: s) = false := by
  rw [specRestOk]
  simp [hne, hc]

theorem specRestOk_underscore_bad {b : ℕ} {d : Char}
    (hd : digitVal b d = none) (cs : List Char) :
    specRestOk b ('_' :: d :: cs) = false := by
  by_cases hu : d = '_'
  · subst hu
    rw [specRestOk, noDoubleUnd_cons_cons]
    simp
  · rw [specRestOk]
    simp [hu, hd]

/-- The CPython continuation scanner agrees with the spec's wording of
the digit grammar, and computes the spec's value. -/
theorem digitsRest_eq_spec (b : ℕ) : ∀ (s : List Char) (v : ℕ),
    digitsRest b v s = if specRestOk b s then some (specRestVal b v s) else none := by
  have key : ∀ s : List Char,
      (∀ v, digitsRest b v s =
        if specRestOk b s then some (specRestVal b v s) else none) ∧
      (∀ c v, digitsRest b v (c :: s) =
        if specRestOk b (c :: s) then some (specRestVal b v (c :: s)) else none) := by
    intro s
    induction s with
    | nil =>
      constructor
      · intro v
        rfl
      · intro c v
        by_cases hc : c = '_'
        · subst hc
          rfl
        · rw [digitsRest, if_neg hc]
          cases hd : digitVal b c with
          | some d =>
            rw [specRestOk_cons_digit hd, specRestVal_cons_digit hd]
            rw [show specRestOk b ([] : List Char) = true from rfl, if_pos rfl]
            rfl
          | none =>
            rw [specRestOk_cons_bad hc hd, if_neg (by simp)]
    | cons d cs ih =>
      constructor
      · exact ih.2 d
      · intro c v
        by_cases hc : c = '_'
        · subst hc
          rw [digitsRest, if_pos rfl]
          cases hd : digitVal b d with
          | some e =>
            rw [specRestOk_underscore hd, specRestVal_underscore,
              specRestOk_cons_digit hd, specRestVal_cons_digit hd]
            exact ih.1 (v * b + e)
          | none =>
            rw [specRestOk_underscore_bad hd, if_neg (by simp)]
        · rw [digitsRest, if_neg hc]
          cases hd : digitVal b c with
          | some d0 =>
            rw [specRestOk_cons_digit hd, specRestVal_cons_digit hd]
            exact ih.2 d (v * b + d0)
          | none =>
            rw [specRestOk_cons_bad hc hd, if_neg (by simp)]
  intro s
  exact (key s).1

/-- The CPython digit-run scanner agrees with the spec's digit run. -/
theorem digitsRun_eq_spec (b : ℕ) (s : List Char) :
    digitsRun b s = specDigits b s := by
  cases s with
  | nil => rfl
  | cons c cs =>
    rw [digitsRun, specDigits]
    cases hd : digitVal b c with
    | some d =>
      by_cases hok : specRestOk b cs = true
      · rw [if_pos (by simp [hok])]
        exact (digitsRest_eq_spec b cs d).trans (by rw [if_pos hok]; rfl)
      · rw [if_neg (by simp [hok])]
        exact (digitsRest_eq_spec b cs d).trans (by rw [if_neg hok])
    | none =>
      rw [if_neg (by simp)]

theorem digitVal_one_of_ten {c : Char} (h : digitVal 10 c = some 0) :
    digitVal 1 c = some 0 := by
  rw [digitVal] at h ⊢
  cases hr : digitRaw c with
  | none =>
    rw [hr] at h
    cases h
  | some d =>
    rw [hr] at h
    have h' : (if d < 10 then some d else none) = some 0 := h
    by_cases hd : d < 10
    · rw [if_pos hd] at h'
      have hd0 : d = 0 := Option.some.inj h'
      subst hd0
      show (if (0 : ℕ) < 1 then some (0 : ℕ) else none) = some 0
      rw [if_pos (by norm_num)]
    · rw [if_neg hd] at h'
      cases h'

theorem digitVal_ten_of_one {c : Char} {d : ℕ} (h : digitVal 1 c = some d) :
    digitVal 10 c = some 0 ∧ d = 0 := by
  rw [digitVal] at h ⊢
  cases hr : digitRaw c with
  | none =>
    rw [hr] at h
    cases h
  | some e =>
    rw [hr] at h
    have h' : (if e < 1 then some e else none) = some d := h
    by_cases he : e < 1
    · rw [if_pos he] at h'
      have he0 : e = 0 := by omega
      subst he0
      have hd0 : d = 0 := (Option.some.inj h').symm
      subst hd0
      constructor
      · show (if (0 : ℕ) < 10 then some (0 : ℕ) else none) = some 0
        rw [if_pos (by norm_num)]
      · rfl
    · rw [if_neg he] at h'
      cases h'

theorem foldl_digits_zero (b : ℕ) : ∀ l : List Char,
    (∀ c ∈ l, digitVal b c = some 0) →
    l.foldl (fun acc c => acc * b + (digitVal b c).getD 0) 0 = 0 := by
  intro l
  induction l with
  | nil => intro _; rfl
  | cons c cs ih =>
    intro h
    rw [List.foldl_cons, h c (by simp)]
    rw [show (0 : ℕ) * b + (some 0).getD 0 = 0 by simp]
    exact ih (fun x hx => h x (by simp [hx]))

theorem foldl_digits_eq_zero (b : ℕ) (hb : 1 ≤ b) : ∀ (l : List Char) (v : ℕ),
    l.foldl (fun acc c => acc * b + (digitVal b c).getD 0) v = 0 →
    v = 0 ∧ ∀ c ∈ l, (digitVal b c).getD 0 = 0 := by
  intro l
  induction l with
  | nil =>
    intro v h
    exact ⟨h, by simp⟩
  | cons c cs ih =>
    intro v h
    rw [List.foldl_cons] at h
    obtain ⟨h1, h2⟩ := ih _ h
    have hvb : v * b = 0 ∧ (digitVal b c).getD 0 = 0 := by omega
    have hv : v = 0 := by
      rcases Nat.mul_eq_zero.mp hvb.1 with h | h
      · exact h
      · omega
    refine ⟨hv, ?_⟩
    intro x hx
    rcases List.mem_cons.mp hx with rfl | hx
    · exact hvb.2
    · exact h2 x hx

/-- A base-1 continuation is a base-10 continuation of value zero. -/
theorem specRestOk_one_transfer {t : List Char} (h : specRestOk 1 t = true) :
    specRestOk 10 t = true ∧ specRestVal 10 0 t = 0 ∧ specRestVal 1 0 t = 0 := by
  rw [specRestOk, Bool.and_eq_true, Bool.and_eq_true, List.all_eq_true] at h
  obtain ⟨⟨hlast, hnd⟩, hall⟩ := h
  have hallz : ∀ c ∈ t.filter (fun c => !(c == '_')),
      digitVal 10 c = some 0 ∧ digitVal 1 c = some 0 := by
    intro c hc
    rw [List.mem_filter] at hc
    obtain ⟨hct, hcne⟩ := hc
    have h1 := hall c hct
    rw [Bool.or_eq_true] at h1
    rcases h1 with h1 | h1
    · rw [h1] at hcne
      cases hcne
    · rw [Option.isSome_iff_exists] at h1
      obtain ⟨d, hd⟩ := h1
      obtain ⟨h10, hd0⟩ := digitVal_ten_of_one hd
      subst hd0
      exact ⟨h10, hd⟩
  refine ⟨?_, ?_, ?_⟩
  · rw [specRestOk, Bool.and_eq_true, Bool.and_eq_true, List.all_eq_true]
    refine ⟨⟨hlast, hnd⟩, ?_⟩
    intro c hct
    rw [Bool.or_eq_true]
    by_cases hcu : (c == '_') = true
    · exact Or.inl hcu
    · right
      have hcf : c ∈ t.filter (fun c => !(c == '_')) := by
        rw [List.mem_filter]
        exact ⟨hct, by simp [Bool.not_eq_true] at hcu ⊢; exact hcu⟩
      rw [(hallz c hcf).1]
      rfl
  · rw [specRestVal]
    exact foldl_digits_zero 10 _ (fun c hc => (hallz c hc).1)
  · rw [specRestVal]
    exact foldl_digits_zero 1 _ (fun c hc => (hallz c hc).2)

/-- A base-10 continuation of value zero is a base-1 continuation. -/
theorem specRestOk_ten_to_one {t : List Char} (h : specRestOk 10 t = true)
    (hz : specRestVal 10 0 t = 0) : specRestOk 1 t = true := by
  rw [specRestOk, Bool.and_eq_true, Bool.and_eq_true, List.all_eq_true] at h
  obtain ⟨⟨hlast, hnd⟩, hall⟩ := h
  rw [specRestVal] at hz
  have hds := (foldl_digits_eq_zero 10 (by norm_num) _ 0 hz).2
  rw [specRestOk, Bool.and_eq_true, Bool.and_eq_true, List.all_eq_true]
  refine ⟨⟨hlast, hnd⟩, ?_⟩
  intro c hct
  rw [Bool.or_eq_true]
  by_cases hcu : (c == '_') = true
  · exact Or.inl hcu
  · right
    have hcf : c ∈ t.filter (fun c => !(c == '_')) := by
      rw [List.mem_filter]
      exact ⟨hct, by simp [Bool.not_eq_true] at hcu ⊢; exact hcu⟩
    have h10 := hall c hct
    rw [Bool.or_eq_true] at h10
    rcases h10 with h10 | h10
    · exact absurd h10 hcu
    · rw [Option.isSome_iff_exists] at h10
      obtain ⟨d, hd⟩ := h10
      have hdz : d = 0 := by
        have hgd := hds c hcf
        rw [hd] at hgd
        exact hgd
      subst hdz
      rw [digitVal_one_of_ten hd]
      rfl

/-- The code's leading-zero branch (a base-1 scan of the remainder) is
the spec's "a decimal numeral beginning with 0 must denote zero". -/
theorem zeros_branch_eq (t : List Char) :
    digitsRest 1 0 t =
      match specDigits 10 ('0' :: t) with
      | some v => if v = 0 then some 0 else none
      | none => none := by
  cases hsd : specDigits 10 ('0' :: t) with
  | some v =>
    rw [specDigits, show digitVal 10 '0' = some 0 from rfl] at hsd
    by_cases h10 : specRestOk 10 t = true
    · rw [if_pos (by simp [h10])] at hsd
      have hv : specRestVal 10 0 t = v := Option.some.inj hsd
      rw [digitsRest_eq_spec]
      by_cases hz : v = 0
      · subst hz
        rw [if_pos (specRestOk_ten_to_one h10 hv)]
        rw [(specRestOk_one_transfer (specRestOk_ten_to_one h10 hv)).2.2]
        rfl
      · have hno : ¬ specRestOk 1 t = true := by
          intro h1
          exact hz (hv ▸ (specRestOk_one_transfer h1).2.1)
        rw [if_neg hno]
        show (none : Option ℕ) = if v = 0 then some 0 else none
        rw [if_neg hz]
    · rw [if_neg (by simp [h10])] at hsd
      cases hsd
  | none =>
    rw [specDigits, show digitVal 10 '0' = some 0 from rfl] at hsd
    by_cases h10 : specRestOk 10 t = true
    · rw [if_pos (by simp [h10])] at hsd
      cases hsd
    · have hno : ¬ specRestOk 1 t = true := by
        intro h1
        exact h10 (specRestOk_one_transfer h1).1
      rw [digitsRest_eq_spec, if_neg hno]

/-- The CPython magnitude parser agrees with the amended wording. -/
theorem pyIntAbs_eq_spec : ∀ s : List Char, pyIntAbs s = specIntAbs s := by
  intro s
  match s with
  | [] => rfl
  | [c] =>
    rw [pyIntAbs, specIntAbs]
    by_cases h : c = '0'
    · rw [if_pos h, if_pos h]
    · rw [if_neg h, if_neg h, digitsRun_eq_spec]
  | c0 :: c :: rest =>
    rw [pyIntAbs, specIntAbs]
    by_cases h0 : c0 = '0'
    · rw [if_pos h0, if_pos h0]
      by_cases hx : (c == 'x' || c == 'X') = true
      · rw [if_pos hx, if_pos hx, digitsRun_eq_spec]
      · rw [if_neg hx, if_neg hx]
        by_cases ho : (c == 'o' || c == 'O') = true
        · rw [if_pos ho, if_pos ho, digitsRun_eq_spec]
        · rw [if_neg ho, if_neg ho]
          by_cases hb : (c == 'b' || c == 'B') = true
          · rw [if_pos hb, if_pos hb, digitsRun_eq_spec]
          · rw [if_neg hb, if_neg hb]
            subst h0
            exact zeros_branch_eq (c :: rest)
    · rw [if_neg h0, if_neg h0, digitsRun_eq_spec]

theorem pyInt0_eq_spec (s : List Char) : pyInt0 s = specInt0 s := by
  rw [pyInt0, specInt0]
  simp only [pyIntAbs_eq_spec]

/-- **C7 (amended).** For every token, `parse_int` trims whitespace,
strips *all* trailing commas, then reads a Python integer literal with
radix auto-detection: `0x`/`0X` hex, `0o`/`0O` octal, `0b`/`0B` binary,
decimal otherwise, an optional sign, single underscores between digits
(one also allowed right after the radix marker), and an unprefixed
numeral with a leading zero only when it denotes zero; it fails with
`FormatError` exactly when the remaining text is not such a literal. -/
theorem parse_int_literal_refinement (raw : List Char) :
    parse_int raw = spec_parse_int raw := by
  rw [parse_int, spec_parse_int, pyInt0_eq_spec]


